import Mathlib

/-!
Verification of the WhiteBoard application (`src/app.py`).

This file gives a shallow embedding of the application's core: the
Project/Board/Note document model, its persistence layer
(`save_project` / `load_project` / `empty_project`), the navigation
history (`go_to_board` / `go_back` / `go_forward`), nesting by drag
release (`BaseNoteItem.mouseReleaseEvent` / `nest_note_into`), cascading
delete (`delete_note` / `_delete_board_recursive`), board refresh
(`refresh_board`), the asset store (`copy_into_assets`) and subtree
copy/paste (`_collect_subtree` / `_paste_subtree`).

Modelling conventions:
* Python `dict`s (which preserve insertion order and have unique keys)
  are modelled as association lists `List (String × α)`.
* Python `float` coordinates and timestamps are modelled as `ℚ`; the
  claims under study copy these values around and compare them, they
  never exercise rounding behaviour.
* `uuid.uuid4().hex` is modelled as an injective fresh-name supply
  `genId : Nat → String` threaded through the operations as a counter;
  the real generator's freshness is expressed as hypotheses stating
  that no pre-existing name is a `genId` value at or past the counter.
* Exceptions (`KeyError`, unbounded recursion) are modelled by `Option`
  results (`none` = the Python code raises / does not terminate).
* The filesystem of the asset store is modelled as the list of stored
  relative file names; `os.path.exists` on an asset path is membership
  in that list.

The file is organised as: all definitions first, then all theorems.
-/

set_option maxRecDepth 40000

-- ==================================================================
-- DEFINITIONS
-- ==================================================================

/-- Association-list lookup, mirroring Python `dict.get` (and `dict[k]`,
whose `KeyError` is the `none` case at the call sites). -/
def lookupA {α : Type} : List (String × α) → String → Option α
  | [], _ => none
  | (k, v) :: tl, key => if k = key then some v else lookupA tl key

/-- Update the value stored at `key` in place (Python mutates the stored
object): position and all other entries are unchanged; an absent key is
a no-op. -/
def updA {α : Type} (l : List (String × α)) (key : String) (f : α → α) :
    List (String × α) :=
  l.map (fun kv => if kv.1 = key then (kv.1, f kv.2) else kv)

/-- `dict.pop(key, None)`: drop the entry at `key` if present (keys are
unique in every dict the program builds, so dropping the first match is
dropping the entry). -/
def eraseA {α : Type} : List (String × α) → String → List (String × α)
  | [], _ => []
  | (k, v) :: tl, key => if k = key then tl else (k, v) :: eraseA tl key

/-- `uuid.uuid4().hex` (`new_id` in `app.py`) modelled as an injective
fresh-name supply: `genId k` is the k-th generated identifier. -/
def genId (k : Nat) : String := String.mk (List.replicate (k + 1) 'x')

/-- Python truthiness of an optional string: `None` and `""` are falsy.
`truthyStr o = some s` exactly when `o` holds a non-empty string. -/
def truthyStr : Option String → Option String
  | none => none
  | some s => if s = "" then none else some s

-- ------------------------------------------------------------------
-- Document model (`NotePayload`, `Note`, `Board`, `Project` dataclasses)
-- ------------------------------------------------------------------

/-- `NotePayload` dataclass: flat superset record, every field present
on every note regardless of kind. -/
structure NotePayload where
  title : String := ""
  subtitle : String := ""
  body : String := ""
  font_pt : Int := 12
  audio_asset : String := ""
  image_asset : String := ""
  volume : Int := 100
deriving DecidableEq, Repr

/-- `Note` dataclass. -/
structure Note where
  id : String
  type : String
  pos : ℚ × ℚ := (0, 0)
  size : ℚ × ℚ := (260, 140)
  z : Int := 0
  child_board_id : Option String := none
  payload : NotePayload := {}
deriving DecidableEq, Repr

/-- `Board` dataclass. `items` is the insertion-ordered dict. -/
structure Board where
  id : String
  title : String := "Pizarra"
  items_order : List String := []
  items : List (String × Note) := []
deriving DecidableEq, Repr

/-- `Project` dataclass. -/
structure Project where
  version : Int
  project_id : String
  root_board_id : String
  boards : List (String × Board)
  last_opened : ℚ := 0
deriving DecidableEq, Repr

/-- The truthy child-board reference of a note
(`n.child_board_id` used as a Python condition). -/
def truthyChild (n : Note) : Option String := truthyStr n.child_board_id

/-- The Python condition `n.type == "idea" and n.child_board_id`: the
child board a note makes reachable. -/
def ideaLink (n : Note) : Option String :=
  if n.type = "idea" then truthyChild n else none

/-- Replace a project's board dict (the shape of every mutation of
`self.project.boards`). -/
def withBoards (p : Project) (bl : List (String × Board)) : Project :=
  { p with boards := bl }

/-- `empty_project()`. `c` is the fresh-id counter (`new_id` is called
first for the root board, then for the project id); `tmod` is the
module-load timestamp that the `last_opened` dataclass default captured. -/
def emptyProject (c : Nat) (tmod : ℚ) : Project :=
  let root_id := genId c
  { version := 8, project_id := genId (c + 1), root_board_id := root_id,
    boards := [(root_id, { id := root_id, title := "Raíz" })],
    last_opened := tmod }

-- ------------------------------------------------------------------
-- Persistence layer (`save_project` / `load_project`)
-- ------------------------------------------------------------------

/-- One note record of the serialized file (`serial["boards"][bid]["items"][nid]`). -/
structure SNote where
  id : String
  type : String
  pos : ℚ × ℚ
  size : ℚ × ℚ
  z : Int
  child_board_id : Option String
  payload : NotePayload
deriving DecidableEq, Repr

/-- One board record of the serialized file. -/
structure SBoard where
  id : String
  title : String
  items_order : List String
  items : List (String × SNote)
deriving DecidableEq, Repr

/-- The serialized project record (`serial` in `save_project`); its JSON
encoding/decoding is the identity on this structured value. -/
structure SProject where
  version : Int
  project_id : String
  root_board_id : String
  last_opened : ℚ
  boards : List (String × SBoard)
deriving DecidableEq, Repr

/-- The note record written by `save_project` for a note `n`. -/
def saveNote (n : Note) : SNote :=
  { id := n.id, type := n.type, pos := n.pos, size := n.size, z := n.z,
    child_board_id := if n.type = "idea" then n.child_board_id else none,
    payload :=
      { title := n.payload.title, subtitle := n.payload.subtitle,
        body := n.payload.body, font_pt := n.payload.font_pt,
        audio_asset := n.payload.audio_asset, image_asset := n.payload.image_asset,
        volume := n.payload.volume } }

/-- The board record written by `save_project`. -/
def saveBoard (b : Board) : SBoard :=
  { id := b.id, title := b.title, items_order := b.items_order,
    items := b.items.map (fun kv => (kv.1, saveNote kv.2)) }

/-- `save_project p` at wall-clock time `now`: note that `last_opened`
is written as `time.time()`, not as `p.last_opened`. -/
def saveProject (p : Project) (now : ℚ) : SProject :=
  { version := p.version, project_id := p.project_id,
    root_board_id := p.root_board_id, last_opened := now,
    boards := p.boards.map (fun kv => (kv.1, saveBoard kv.2)) }

/-- The note rebuilt by `load_project` from a note record.  On records
produced by `save_project` every dict field is present, so the `.get`
fallbacks of the Python code never fire and the `int(...)` coercions are
the identity. -/
def loadNote (sn : SNote) : Note :=
  { id := sn.id, type := sn.type, pos := sn.pos, size := sn.size, z := sn.z,
    child_board_id := if sn.type = "idea" then sn.child_board_id else none,
    payload :=
      { title := sn.payload.title, subtitle := sn.payload.subtitle,
        body := sn.payload.body, font_pt := sn.payload.font_pt,
        audio_asset := sn.payload.audio_asset, image_asset := sn.payload.image_asset,
        volume := sn.payload.volume } }

/-- The board rebuilt by `load_project` from a board record. -/
def loadBoard (sb : SBoard) : Board :=
  { id := sb.id, title := sb.title, items_order := sb.items_order,
    items := sb.items.map (fun kv => (kv.1, loadNote kv.2)) }

/-- `load_project` on an existing, well-formed file. -/
def loadProject (d : SProject) : Project :=
  { version := d.version, project_id := d.project_id,
    root_board_id := d.root_board_id,
    boards := d.boards.map (fun kv => (kv.1, loadBoard kv.2)),
    last_opened := d.last_opened }

/-- `load_project` including its missing-file branch: `none` models
`not os.path.exists(path)`, in which case a fresh empty project is
returned (`c`, `tmod` as in `emptyProject`). -/
def load_project (d : Option SProject) (c : Nat) (tmod : ℚ) : Project :=
  match d with
  | none => emptyProject c tmod
  | some d => loadProject d

/-- The §3 data-model invariant used by round-trip: `child_board_id` is
`None` for every kind except `idea`. -/
def ChildInv (p : Project) : Prop :=
  ∀ kv ∈ p.boards, ∀ nk ∈ kv.2.items, nk.2.type ≠ "idea" → nk.2.child_board_id = none

/-- Concrete project used in the C1 counterexample and witness. -/
def pC1 : Project :=
  { version := 8, project_id := "p", root_board_id := "r",
    boards := [("r", { id := "r", title := "Raíz" })], last_opened := 0 }

-- ------------------------------------------------------------------
-- Navigation history (`go_to_board` / `go_back` / `go_forward` / `_push_mru`)
-- ------------------------------------------------------------------

/-- The navigation state of `MainWindow`: current board id, back and
forward stacks (Python lists used as stacks: push/pop at the end) and
the most-recently-used list. -/
structure NavState where
  current_board_id : String
  back_stack : List String := []
  forward_stack : List String := []
  mru : List String := []
deriving DecidableEq, Repr

/-- `MainWindow._push_mru` (the menu rebuild is presentation only). -/
def push_mru (s : NavState) (bid : String) : NavState :=
  let m := if bid ∈ s.mru then s.mru.erase bid else s.mru
  { s with mru := (bid :: m).take 12 }

/-- `MainWindow.go_to_board` restricted to the navigation state
(`refresh_board` and `autosave` do not touch it). -/
def go_to_board (s : NavState) (board_id : String) (push_history : Bool) : NavState :=
  let s1 :=
    if push_history = true ∧ board_id ≠ s.current_board_id then
      { s with back_stack := s.back_stack ++ [s.current_board_id], forward_stack := [] }
    else s
  push_mru { s1 with current_board_id := board_id } board_id

/-- `MainWindow.go_back`: the empty-stack guard returns before any
other statement runs. -/
def go_back (s : NavState) : NavState :=
  match s.back_stack.getLast? with
  | none => s
  | some prev =>
      push_mru
        { s with current_board_id := prev,
                 back_stack := s.back_stack.dropLast,
                 forward_stack := s.forward_stack ++ [s.current_board_id] } prev

/-- `MainWindow.go_forward`. -/
def go_forward (s : NavState) : NavState :=
  match s.forward_stack.getLast? with
  | none => s
  | some nxt =>
      push_mru
        { s with current_board_id := nxt,
                 forward_stack := s.forward_stack.dropLast,
                 back_stack := s.back_stack ++ [s.current_board_id] } nxt

-- ------------------------------------------------------------------
-- Board refresh (`refresh_board`): lazy pruning of dangling order ids
-- ------------------------------------------------------------------

/-- The model-state effect of `MainWindow.refresh_board` on the shown
board: every id in `items_order` with no entry in `items` is removed
(one `list.remove` call per occurrence, looping over a snapshot of the
list).  With an empty `items_order` the Python code iterates a fresh
copy of the key list, so the stored board is untouched — which the
filter also leaves unchanged on `[]`.  Scene-item construction is
presentation and not modelled. -/
def refreshBoard (b : Board) : Board :=
  match b.items_order with
  | [] => b
  | _ :: _ =>
      { b with items_order :=
          b.items_order.filter (fun nid => (lookupA b.items nid).isSome) }

/-- `refresh_board` looks the current board up with `boards[...]`:
a missing current board raises (`none`). -/
def refreshIn (p : Project) (cur : String) : Option Project :=
  match lookupA p.boards cur with
  | none => none
  | some bd => some { p with boards := updA p.boards cur (fun _ => refreshBoard bd) }

-- ------------------------------------------------------------------
-- Nesting (`BaseNoteItem.mouseReleaseEvent` / `nest_note_into`)
-- ------------------------------------------------------------------

/-- Containment of a scene point in a note item's bounds: the item is a
rect `(0,0,w,h)` positioned at `n.pos`. -/
def noteContains (n : Note) (pt : ℚ × ℚ) : Bool :=
  decide (n.pos.1 ≤ pt.1 ∧ pt.1 ≤ n.pos.1 + n.size.1
    ∧ n.pos.2 ≤ pt.2 ∧ pt.2 ≤ n.pos.2 + n.size.2)

/-- The loop of `BaseNoteItem.mouseReleaseEvent`: walk the scene items
under the release point (`stack` is the scene's stacking order, top
first; `scene.items(pos)` keeps those containing the point) and take the
first note item that is not the dragged one and is of kind `idea`. -/
def findNestTarget (stack : List Note) (dragged : String) (pt : ℚ × ℚ) : Option Note :=
  (stack.filter (fun n => noteContains n pt)).find?
    (fun n => decide (n.id ≠ dragged) && decide (n.type = "idea"))

/-- `tgt.child_board_id = child_id` (mutating the note stored in its
board's dict under key `target_id`). -/
def boardSetChild (bd : Board) (target_id child_id : String) : Board :=
  { bd with items := updA bd.items target_id (fun t => { t with child_board_id := some child_id }) }

/-- `b.items.pop(nid, None)` followed by
`if nid in b.items_order: b.items_order.remove(nid)`. -/
def boardDropNote (bd : Board) (nid : String) : Board :=
  { bd with items := eraseA bd.items nid, items_order := bd.items_order.erase nid }

/-- `b.items[nid] = n; b.items_order.append(nid)` (fresh key: appended). -/
def boardAddNote (bd : Board) (nid : String) (n : Note) : Board :=
  { bd with items := bd.items ++ [(nid, n)], items_order := bd.items_order ++ [nid] }

/-- The `Board(id=child_id, title=... or "Sub-pizarra")` constructed by
lazy child-board creation (in `nest_note_into`, `open_child_of_note`
and `_paste_subtree`). -/
def freshChildBoard (child_id title : String) : Board :=
  { id := child_id,
    title := if title = "" then "Sub-pizarra" else title,
    items_order := [], items := [] }

/-- `MainWindow.nest_note_into`.  `c` is the fresh-id counter.  `none`
models a raised `KeyError` (missing current board, or a truthy
`child_board_id` naming no board). -/
def nest_note_into (p : Project) (cur : String) (c : Nat)
    (dragged_id target_id : String) : Option (Project × Nat) :=
  if dragged_id = target_id then some (p, c)
  else
    match lookupA p.boards cur with
    | none => none
    | some b =>
      match lookupA b.items dragged_id, lookupA b.items target_id with
      | some src, some tgt =>
        if tgt.type = "idea" then
          -- lazy child-board creation (`tgt.child_board_id = child_id` mutates
          -- the note stored in the current board; the new board is a new dict key)
          let lazy : Project × String × Nat :=
            match truthyChild tgt with
            | some cb => (p, cb, c)
            | none =>
              let child_id := genId c
              ({ p with boards := updA p.boards cur (fun bd => boardSetChild bd target_id child_id) ++ [(child_id, freshChildBoard child_id tgt.payload.title)] },
               child_id, c + 1)
          match lookupA lazy.1.boards lazy.2.1 with
          | none => none
          | some child =>
            if (lookupA child.items dragged_id).isSome then some (lazy.1, lazy.2.2)
            else
              let p2 := { lazy.1 with boards := updA lazy.1.boards cur (fun bd => boardDropNote bd dragged_id) }
              let src2 := { src with pos := ((40 : ℚ), (40 : ℚ)) }
              let p3 := { p2 with boards := updA p2.boards lazy.2.1 (fun bd => boardAddNote bd dragged_id src2) }
              (refreshIn p3 cur).map (fun p4 => (p4, lazy.2.2))
        else some (p, c)
      | _, _ => some (p, c)

/-- The full release-drop behaviour: `mouseReleaseEvent` emits
`request_nest_into` for the found target (connected to
`nest_note_into`), or does nothing when no idea note lies under the
release point. -/
def mouseReleaseNest (p : Project) (cur : String) (c : Nat) (stack : List Note)
    (dragged : String) (pt : ℚ × ℚ) : Option (Project × Nat) :=
  match findNestTarget stack dragged pt with
  | some tgt => nest_note_into p cur c dragged tgt.id
  | none => some (p, c)

/-- Explicit minimum on ℚ (kept kernel-computable). -/
def qmin (a b : ℚ) : ℚ := if a ≤ b then a else b

/-- Explicit maximum on ℚ (kept kernel-computable). -/
def qmax (a b : ℚ) : ℚ := if a ≤ b then b else a

/-- Claim-side formalisation of the spec's overlap measure: the area of
the intersection of two note rectangles. -/
def specOverlapArea (a b : Note) : ℚ :=
  qmax 0 (qmin (a.pos.1 + a.size.1) (b.pos.1 + b.size.1) - qmax a.pos.1 b.pos.1)
    * qmax 0 (qmin (a.pos.2 + a.size.2) (b.pos.2 + b.size.2) - qmax a.pos.2 b.pos.2)

/-- Claim-side: the area of a note rectangle. -/
def specArea (a : Note) : ℚ := a.size.1 * a.size.2

/-- Side conditions under which `nest_note_into` reaches its mutating
path: an existing child board does not already contain the dragged note,
and a lazily created child board gets a genuinely fresh key. -/
def nestReady (p : Project) (c : Nat) (tgt : Note) (dragged : String) : Prop :=
  (truthyChild tgt = none → lookupA p.boards (genId c) = none)
  ∧ ∀ cb, truthyChild tgt = some cb →
      ∃ cbd, lookupA p.boards cb = some cbd ∧ lookupA cbd.items dragged = none

/-- Concrete data for C5: the dragged note `A`. -/
def noteA : Note := { id := "a", type := "texto", pos := (0, 0), size := (100, 100) }

/-- Concrete data for C5: the target idea note `B`. -/
def noteB : Note := { id := "b", type := "idea", pos := (90, 0), size := (200, 200) }

/-- Concrete board holding `noteA` and `noteB`. -/
def rootBoardC5 : Board :=
  { id := "root", title := "Raíz", items_order := ["a", "b"],
    items := [("a", noteA), ("b", noteB)] }

/-- Concrete project for the C5 counterexample and witness. -/
def pC5 : Project :=
  { version := 8, project_id := "p", root_board_id := "root",
    boards := [("root", rootBoardC5)], last_opened := 0 }

/-- Concrete data for C6: a note sitting in the root board and (already)
in the child board of the target idea. -/
def noteD : Note := { id := "d", type := "texto" }

/-- Concrete data for C6: an idea note with an existing child board. -/
def noteT : Note := { id := "t", type := "idea", child_board_id := some "cb" }

/-- Concrete root board for C6. -/
def rootBoardC6 : Board :=
  { id := "root", title := "Raíz", items_order := ["d", "t"],
    items := [("d", noteD), ("t", noteT)] }

/-- Concrete child board for C6, already containing the dragged note. -/
def childBoardC6 : Board :=
  { id := "cb", title := "Sub", items_order := ["d"], items := [("d", noteD)] }

/-- Concrete project for the C6 witness. -/
def pC6 : Project :=
  { version := 8, project_id := "p", root_board_id := "root",
    boards := [("root", rootBoardC6), ("cb", childBoardC6)], last_opened := 0 }

-- ------------------------------------------------------------------
-- Cascading delete (`delete_note` / `_delete_board_recursive`)
-- ------------------------------------------------------------------

mutual

/-- `MainWindow._delete_board_recursive`.  `fuel` bounds the recursion
depth; `none` models the Python recursion never returning, which the
acyclic board forest excludes (the theorems use any sufficient fuel). -/
def deleteBoardRec (fuel : Nat) (p : Project) (board_id : String) : Option Project :=
  match fuel with
  | 0 => none
  | fuel2 + 1 =>
    match lookupA p.boards board_id with
    | none => some p
    | some bd =>
      match delChildren fuel2 bd.items p with
      | none => none
      | some p1 => some (withBoards p1 (eraseA p1.boards board_id))
termination_by (fuel, 0)

/-- The loop `for n in list(bd.items.values())` of
`_delete_board_recursive`: recurse into every idea note's truthy child
board, threading the mutated project. -/
def delChildren (fuel : Nat) (l : List (String × Note)) (p : Project) : Option Project :=
  match l with
  | [] => some p
  | (_, n) :: tl =>
    match ideaLink n with
    | some cb =>
      match deleteBoardRec fuel p cb with
      | none => none
      | some p1 => delChildren fuel tl p1
    | none => delChildren fuel tl p
termination_by (fuel, l.length + 1)

end

/-- `MainWindow.delete_note`.  `cascade` is the user's answer to the
confirmation dialog (`QMessageBox.Yes`); the dialog is only shown for an
idea note with a truthy child board. -/
def delete_note (fuel : Nat) (p : Project) (cur note_id : String) (cascade : Bool) :
    Option Project :=
  match lookupA p.boards cur with
  | none => none
  | some b =>
    match lookupA b.items note_id with
    | none => some p
    | some n =>
      match ideaLink n with
      | some cb =>
        if cascade then
          match deleteBoardRec fuel p cb with
          | none => none
          | some p1 =>
              refreshIn (withBoards p1 (updA p1.boards cur (fun bd => boardDropNote bd note_id))) cur
        else some p
      | none =>
          refreshIn (withBoards p (updA p.boards cur (fun bd => boardDropNote bd note_id))) cur

-- ------------------------------------------------------------------
-- Board subtrees (claim-side description of the tree that
-- `_delete_board_recursive` traverses)
-- ------------------------------------------------------------------

/-- A description of a board subtree: a board id together with the
subtrees hanging off its idea notes, in item order. -/
inductive SubT where
  | node : String → List SubT → SubT

mutual

/-- Number of boards in a subtree. -/
def SubT.size : SubT → Nat
  | .node _ cs => 1 + sizeListT cs

/-- Number of boards in a list of subtrees. -/
def sizeListT : List SubT → Nat
  | [] => 0
  | t :: ts => SubT.size t + sizeListT ts

end

/-- Root board id of a subtree. -/
def SubT.bid : SubT → String
  | .node b _ => b

mutual

/-- All board ids of a subtree, root first. -/
def SubT.bids : SubT → List String
  | .node b cs => b :: bidsListT cs

/-- All board ids of a list of subtrees. -/
def bidsListT : List SubT → List String
  | [] => []
  | t :: ts => SubT.bids t ++ bidsListT ts

end

/-- The truthy child boards of the idea notes of an item dict, in order:
exactly the boards `_delete_board_recursive` recurses into. -/
def ideaChildren (items : List (String × Note)) : List String :=
  items.filterMap (fun kv => ideaLink kv.2)

mutual

/-- `Fits p t`: the subtree description `t` matches the live board graph
of `p` — the root board exists and its idea children are exactly the
roots of `t`'s children, recursively. -/
def Fits (p : Project) : SubT → Prop
  | .node b cs => ∃ bd, lookupA p.boards b = some bd
      ∧ ideaChildren bd.items = List.map SubT.bid cs ∧ FitsList p cs

/-- `Fits` for each subtree of a list. -/
def FitsList (p : Project) : List SubT → Prop
  | [] => True
  | t :: ts => Fits p t ∧ FitsList p ts

end

/-- Drop every entry whose key belongs to `ks`. -/
def removeKeys {α : Type} (l : List (String × α)) (ks : List String) :
    List (String × α) :=
  l.filter (fun kv => !(decide (kv.1 ∈ ks)))

/-- The keys of an association list. -/
def keysOf {α : Type} (l : List (String × α)) : List String := l.map Prod.fst

/-- Total weight of a board list under a weight function. -/
def sumW (w : Board → Nat) (l : List (String × Board)) : Nat :=
  (l.map (fun kv => w kv.2)).sum

/-- Weight of the board stored at `k` (0 if absent). -/
def wOf (w : Board → Nat) (l : List (String × Board)) (k : String) : Nat :=
  match lookupA l k with
  | some bd => w bd
  | none => 0

/-- Number of notes held by the boards named in `ks` (the claim's `N`
when `ks` are the descendant board ids). -/
def notesOfBids (p : Project) (ks : List String) : Nat :=
  (ks.map (fun k => wOf (fun bd => bd.items.length) p.boards k)).sum

/-- Total number of notes stored across all boards of a project. -/
def totalNotes (p : Project) : Nat :=
  sumW (fun bd => bd.items.length) p.boards

/-- Every non-root board is referenced by some note (the spec's
"reachable from a note" forest property). -/
def ReachInv (p : Project) : Prop :=
  ∀ kv ∈ p.boards, kv.1 ≠ p.root_board_id →
    ∃ bk ∈ p.boards, ∃ m ∈ bk.2.items, ideaLink m.2 = some kv.1


/-- Concrete data for C3: the deepest (empty) descendant board. -/
def boardCb2 : Board := { id := "cb2", title := "Sub2" }

/-- Concrete data for C3: an idea note in the middle board pointing at
`boardCb2`. -/
def noteI2 : Note := { id := "i2", type := "idea", child_board_id := some "cb2" }

/-- Concrete data for C3: a plain text note in the middle board. -/
def noteT1 : Note := { id := "t1", type := "texto" }

/-- Concrete data for C3: the middle descendant board with two notes. -/
def boardCb1 : Board :=
  { id := "cb1", title := "Sub1", items_order := ["t1", "i2"],
    items := [("t1", noteT1), ("i2", noteI2)] }

/-- Concrete data for C3: the root idea note owning `boardCb1`. -/
def noteI1 : Note := { id := "i1", type := "idea", child_board_id := some "cb1" }

/-- Concrete data for C3: the root board. -/
def rootBoardC3 : Board :=
  { id := "root", title := "Raíz", items_order := ["i1"],
    items := [("i1", noteI1)] }

/-- Concrete project for the C3 witness: root board -> i1 -> cb1 with
two notes, one of which (i2) owns the empty board cb2.  D = 2, N = 2. -/
def pC3 : Project :=
  { version := 8, project_id := "p", root_board_id := "root",
    boards := [("root", rootBoardC3), ("cb1", boardCb1), ("cb2", boardCb2)],
    last_opened := 0 }

/-- The subtree description of i1's child-board hierarchy. -/
def tC3 : SubT := .node "cb1" [.node "cb2" []]

-- ------------------------------------------------------------------
-- Asset store (`copy_into_assets`) and the clipboard subtree
-- (`_collect_subtree` / `_paste_subtree`)
-- ------------------------------------------------------------------

/-- The tail of a character list starting at its last `'.'`
(`none` when no dot occurs). -/
def afterLastDot : List Char → Option (List Char)
  | [] => none
  | ch :: tl =>
    match afterLastDot tl with
    | some r => some r
    | none => if ch = '.' then some (ch :: tl) else none

/-- `pathlib.Path(name).suffix` for a bare file name (the asset
references the program stores never contain path separators): the part
of the name from its last dot on, unless that dot is the first or the
last character. -/
def pySuffix (s : String) : String :=
  match s.data with
  | [] => ""
  | _ :: rest =>
    match afterLastDot rest with
    | some (d :: tl) => if tl = [] then "" else String.mk (d :: tl)
    | _ => ""

/-- `str.lower()` restricted to the names the program handles. -/
def lowerStr (s : String) : String := String.mk (s.data.map Char.toLower)

/-- `copy_into_assets`.  The assets directory is modelled as the list
`store` of stored relative file names, `os.path.exists` as membership
of the source's relative name, and `c` is the fresh-id counter
(`new_id` runs only on the success path).  Returns the new relative
reference (`""` on both failure paths), the advanced counter and the
extended store. -/
def copy_into_assets (src : String) (c : Nat) (store : List String) :
    String × Nat × List String :=
  if src = "" then ("", c, store)
  else if src ∈ store then
    let rel := genId c ++ lowerStr (pySuffix src)
    (rel, c + 1, store ++ [rel])
  else ("", c, store)

/-- One asset-copy step of `_paste_subtree`:
`if pld.get(ref): src = join(ASSETS_DIR, ref); if exists(src): x = copy_into_assets(src)`
(joining with the assets directory and taking the suffix leaves the
reference's own suffix). -/
def assetStep (r : String) (c : Nat) (store : List String) :
    String × Nat × List String :=
  if r ≠ "" ∧ r ∈ store then copy_into_assets r c store else ("", c, store)

/-- The `"note"` record of a `_collect_subtree` node (the note's
position is deliberately not captured). -/
structure SnapNote where
  type : String
  size : ℚ × ℚ
  z : Int
  payload : NotePayload
deriving DecidableEq, Repr

/-- A clipboard node: the captured note record and the captured
children, exactly the dict `_collect_subtree` builds. -/
inductive Snapshot where
  | mk : SnapNote → List Snapshot → Snapshot

/-- The note record of a snapshot node. -/
def Snapshot.note : Snapshot → SnapNote
  | .mk n _ => n

/-- The children of a snapshot node. -/
def Snapshot.children : Snapshot → List Snapshot
  | .mk _ cs => cs

/-- The payload dict built field by field by `_collect_subtree` (all
seven payload fields are copied). -/
def copyPayload (q : NotePayload) : NotePayload :=
  { title := q.title, subtitle := q.subtitle, body := q.body, font_pt := q.font_pt,
    audio_asset := q.audio_asset, image_asset := q.image_asset, volume := q.volume }

/-- The `"note"` record captured from a live note. -/
def snapOfNote (n : Note) : SnapNote :=
  { type := n.type, size := n.size, z := n.z, payload := copyPayload n.payload }

mutual

/-- `MainWindow._collect_subtree`.  `fuel` bounds the recursion depth;
`none` models a raised exception: `KeyError` from `boards[...]` or from
`b.items[nid]` on a dangling order id, or exhausted fuel. -/
def collectSubtree (fuel : Nat) (p : Project) (note : Note) : Option Snapshot :=
  match fuel with
  | 0 => none
  | fuel2 + 1 =>
    match ideaLink note with
    | none => some (.mk (snapOfNote note) [])
    | some cb =>
      match lookupA p.boards cb with
      | none => none
      | some b =>
        match collectChildren fuel2 p b b.items_order with
        | none => none
        | some cs => some (.mk (snapOfNote note) cs)
termination_by (fuel, 0)

/-- The loop `for nid in b.items_order: ... _collect_subtree(b.items[nid])`
of `_collect_subtree` (`b.items[nid]` raises on a dangling order id). -/
def collectChildren (fuel : Nat) (p : Project) (b : Board) (l : List String) :
    Option (List Snapshot) :=
  match l with
  | [] => some []
  | nid :: rest =>
    match lookupA b.items nid with
    | none => none
    | some n =>
      match collectSubtree fuel p n with
      | none => none
      | some s =>
        match collectChildren fuel p b rest with
        | none => none
        | some cs => some (s :: cs)
termination_by (fuel, l.length + 1)

end

/-- The `NotePayload(...)` constructed by `_paste_subtree`: scalar
fields from the captured payload, asset fields from the copy results. -/
def pastedPayload (pld : NotePayload) (audio image : String) : NotePayload :=
  { title := pld.title, subtitle := pld.subtitle, body := pld.body,
    font_pt := pld.font_pt, audio_asset := audio, image_asset := image,
    volume := pld.volume }

/-- The audio-copy result of `_paste_subtree` (the counter starts at
`c + 1`: `new_id` was consumed for the pasted note's id first). -/
def audioRes (sn : SnapNote) (c : Nat) (store : List String) :
    String × Nat × List String :=
  assetStep sn.payload.audio_asset (c + 1) store

/-- The image-copy result of `_paste_subtree`, after the audio copy. -/
def imageRes (sn : SnapNote) (c : Nat) (store : List String) :
    String × Nat × List String :=
  assetStep sn.payload.image_asset (audioRes sn c store).2.1 (audioRes sn c store).2.2

/-- The fresh-id counter after the root note's id and both asset copies
of one `_paste_subtree` invocation. -/
def afterAssetsC (sn : SnapNote) (c : Nat) (store : List String) : Nat :=
  (imageRes sn c store).2.1

/-- The asset store after both asset copies of one `_paste_subtree`
invocation. -/
def afterAssetsS (sn : SnapNote) (c : Nat) (store : List String) : List String :=
  (imageRes sn c store).2.2

/-- The `Note(...)` constructed by `_paste_subtree` (inserted with
`child_board_id=None`; a child link may be set afterwards). -/
def pastedNote (sn : SnapNote) (pos : Option (ℚ × ℚ)) (c : Nat)
    (store : List String) : Note :=
  { id := genId c, type := sn.type,
    pos := (match pos with | some q => q | none => ((60 : ℚ), (60 : ℚ))),
    size := sn.size, z := sn.z, child_board_id := none,
    payload := pastedPayload sn.payload (audioRes sn c store).1 (imageRes sn c store).1 }

/-- The project after `b.items[nid] = n; b.items_order.append(nid)` in
`_paste_subtree`. -/
def pasteP1 (sn : SnapNote) (bid : String) (pos : Option (ℚ × ℚ)) (p : Project)
    (c : Nat) (store : List String) : Project :=
  withBoards p (updA p.boards bid (fun bd => boardAddNote bd (genId c) (pastedNote sn pos c store)))

/-- The project after `n.child_board_id = child_id` (mutating the
pasted note stored in the destination board). -/
def pasteP2 (sn : SnapNote) (bid : String) (pos : Option (ℚ × ℚ)) (p : Project)
    (c : Nat) (store : List String) : Project :=
  withBoards (pasteP1 sn bid pos p c store)
    (updA (pasteP1 sn bid pos p c store).boards bid
      (fun bd => boardSetChild bd (genId c) (genId (afterAssetsC sn c store))))

/-- The project after `self.project.boards[child_id] = Board(...)`
(fresh key: appended). -/
def pasteP3 (sn : SnapNote) (bid : String) (pos : Option (ℚ × ℚ)) (p : Project)
    (c : Nat) (store : List String) : Project :=
  withBoards (pasteP2 sn bid pos p c store)
    ((pasteP2 sn bid pos p c store).boards
      ++ [(genId (afterAssetsC sn c store),
           freshChildBoard (genId (afterAssetsC sn c store)) sn.payload.title)])

mutual

/-- `MainWindow._paste_subtree`.  `c` is the fresh-id counter and
`store` the asset store; `none` models the `KeyError` of
`boards[board_id]`.  The root note (id `genId c`) is inserted with
`child_board_id = None`; for an idea node with children it is then
mutated to point at a freshly created board into which the children
are pasted at `None` positions. -/
def pasteSubtree (node : Snapshot) (board_id : String) (pos : Option (ℚ × ℚ))
    (p : Project) (c : Nat) (store : List String) :
    Option (Project × Nat × List String) :=
  match node with
  | .mk sn cs =>
    match lookupA p.boards board_id with
    | none => none
    | some _ =>
      if sn.type = "idea" ∧ cs.isEmpty = false then
        pasteList cs (genId (afterAssetsC sn c store)) (pasteP3 sn board_id pos p c store)
          (afterAssetsC sn c store + 1) (afterAssetsS sn c store)
      else some (pasteP1 sn board_id pos p c store, afterAssetsC sn c store, afterAssetsS sn c store)
termination_by sizeOf node

/-- The loop `for ch in node["children"]: self._paste_subtree(ch, child_id, None)`. -/
def pasteList (l : List Snapshot) (board_id : String) (p : Project) (c : Nat)
    (store : List String) : Option (Project × Nat × List String) :=
  match l with
  | [] => some (p, c, store)
  | ch :: rest =>
    match pasteSubtree ch board_id none p c store with
    | none => none
    | some r => pasteList rest board_id r.1 r.2.1 r.2.2
termination_by sizeOf l

end

mutual

/-- Number of nodes of a snapshot (drives the collect fuel). -/
def snapSize : Snapshot → Nat
  | .mk _ cs => 1 + snapSizeList cs

/-- Total node count of a snapshot list. -/
def snapSizeList : List Snapshot → Nat
  | [] => 0
  | s :: ss => snapSize s + snapSizeList ss

end

mutual

/-- Well-formed snapshot: only idea nodes carry children.  Every
snapshot `_collect_subtree` produces satisfies this, because children
are only gathered under `note.type == "idea"`. -/
def SnapWF : Snapshot → Prop
  | .mk n cs => (cs ≠ [] → n.type = "idea") ∧ SnapWFList cs

/-- `SnapWF` through a list. -/
def SnapWFList : List Snapshot → Prop
  | [] => True
  | s :: ss => SnapWF s ∧ SnapWFList ss

end

/-- The id-free, asset-free skeleton of a captured note: kind, size, z
and the payload scalar fields (claim-side observer for structural
equality of pasted subtrees). -/
structure ShapeNote where
  type : String
  size : ℚ × ℚ
  z : Int
  title : String
  subtitle : String
  body : String
  font_pt : Int
  volume : Int
deriving DecidableEq, Repr

/-- The skeleton of a subtree (claim-side observer). -/
inductive Shape where
  | mk : ShapeNote → List Shape → Shape

/-- Skeleton of a captured note record. -/
def shapeOfSnap (n : SnapNote) : ShapeNote :=
  { type := n.type, size := n.size, z := n.z, title := n.payload.title,
    subtitle := n.payload.subtitle, body := n.payload.body,
    font_pt := n.payload.font_pt, volume := n.payload.volume }

mutual

/-- Skeleton of a snapshot node. -/
def snapShape : Snapshot → Shape
  | .mk n cs => .mk (shapeOfSnap n) (snapShapeList cs)

/-- Skeletons of a snapshot list. -/
def snapShapeList : List Snapshot → List Shape
  | [] => []
  | s :: ss => snapShape s :: snapShapeList ss

end

/-- Concrete data for C9: an idea note owning the board `cb`. -/
def noteI9 : Note := { id := "i9", type := "idea", child_board_id := some "cb" }

/-- Concrete data for C9: a child board whose order list holds a
dangling id with no entry in the items map. -/
def boardCb9 : Board := { id := "cb", title := "Sub", items_order := ["ghost"], items := [] }

/-- Concrete root board for C9. -/
def rootBoardC9 : Board :=
  { id := "root", items_order := ["i9"], items := [("i9", noteI9)] }

/-- Concrete project for C9: the board `cb` carries the dangling order
id `"ghost"`. -/
def pC9 : Project :=
  { version := 8, project_id := "p9", root_board_id := "root",
    boards := [("root", rootBoardC9), ("cb", boardCb9)], last_opened := 0 }

/-- Concrete data for C10: an idea note owning the empty board `cb0`. -/
def noteI10 : Note := { id := "i10", type := "idea", child_board_id := some "cb0" }

/-- Concrete data for C10: an existing child board with no notes. -/
def boardCb10 : Board := { id := "cb0", title := "Sub" }

/-- Concrete root board for C10. -/
def rootBoardC10 : Board :=
  { id := "root", items_order := ["i10"], items := [("i10", noteI10)] }

/-- Concrete project for the C10 witness. -/
def pC10 : Project :=
  { version := 8, project_id := "p10", root_board_id := "root",
    boards := [("root", rootBoardC10), ("cb0", boardCb10)], last_opened := 0 }

/-- Concrete data for C4: the captured leaf note record. -/
def snapNoteLeafC4 : SnapNote :=
  { type := "texto", size := (260, 140), z := 0, payload := { title := "hoja" } }

/-- Concrete data for C4: a captured leaf note. -/
def snapLeafC4 : Snapshot := .mk snapNoteLeafC4 []

/-- Concrete data for C4: the captured root note record, carrying an
image asset reference. -/
def snapNoteRootC4 : SnapNote :=
  { type := "idea", size := (300, 200), z := 1,
    payload := { title := "copia", image_asset := "img.png" } }

/-- Concrete data for C4: a captured idea-with-child-board subtree whose
root carries an image asset reference. -/
def snapC4 : Snapshot := .mk snapNoteRootC4 [snapLeafC4]

/-- Concrete target project for the C4 witness. -/
def pC4 : Project :=
  { version := 8, project_id := "p4", root_board_id := "root",
    boards := [("root", { id := "root" })], last_opened := 0 }

/-- Concrete asset store for the C4 witness: the source image exists. -/
def storeC4 : List String := ["img.png"]

-- ------------------------------------------------------------------
-- Freshness / bookkeeping predicates for the paste analysis (C4)
-- ------------------------------------------------------------------

/-- Every identifier the supply can still produce is unused as a board
key (`uuid4` collisions are excluded by assumption). -/
def FreshBoards (p : Project) (c : Nat) : Prop :=
  ∀ k, c ≤ k → genId k ∉ p.boards.map Prod.fst

/-- Every identifier the supply can still produce is unused as a note
key on every board. -/
def FreshNotes (p : Project) (c : Nat) : Prop :=
  ∀ k, c ≤ k → ∀ bk ∈ p.boards, genId k ∉ bk.2.items.map Prod.fst

/-- Every file name the supply can still produce (any suffix appended)
is absent from the asset store. -/
def FreshStore (store : List String) (c : Nat) : Prop :=
  ∀ k, c ≤ k → ∀ e, genId k ++ e ∉ store

/-- Key uniqueness of the board dict and of every board's item dict. -/
def KeysOK (p : Project) : Prop :=
  (p.boards.map Prod.fst).Nodup ∧ ∀ bk ∈ p.boards, (bk.2.items.map Prod.fst).Nodup

/-- Every member of `ks` is an identifier generated in `[c, c2)`. -/
def NewKeys (c c2 : Nat) (ks : List String) : Prop :=
  ∀ x ∈ ks, ∃ j, c ≤ j ∧ j < c2 ∧ x = genId j

/-- Every member of `d` is a stored asset name generated in `[c, c2)`:
a fresh identifier with an empty or dot-led suffix. -/
def StoreDelta (c c2 : Nat) (d : List String) : Prop :=
  ∀ x ∈ d, ∃ j e, c ≤ j ∧ j < c2 ∧ x = genId j ++ e
    ∧ (e = "" ∨ e.data.head? = some '.')

/-- A pasted note's asset reference: empty, or a newly stored copy
(absent before the paste, present after). -/
def AssetNew (store st2 : List String) (a : String) : Prop :=
  a = "" ∨ (a ∉ store ∧ a ∈ st2)

/-- Provenance of every note of the post-state: it already existed on
some pre-state board, or it is newly created with an identifier from
`[c, c2)` and freshly copied (never shared) asset references. -/
def Prov (p p2 : Project) (c c2 : Nat) (store st2 : List String) : Prop :=
  ∀ bk ∈ p2.boards, ∀ m ∈ bk.2.items,
    (∃ bk0 ∈ p.boards, m ∈ bk0.2.items)
    ∨ ((∃ j, c ≤ j ∧ j < c2 ∧ m.1 = genId j)
       ∧ AssetNew store st2 m.2.payload.audio_asset
       ∧ AssetNew store st2 m.2.payload.image_asset)

/-- A board extended by a batch of new entries (keys appended to the
order list in order). -/
def boardAddAll (bd : Board) (new : List (String × Note)) : Board :=
  { bd with items := bd.items ++ new, items_order := bd.items_order ++ new.map Prod.fst }

/-- Full specification of one `_paste_subtree` call on `snap` into the
board `bid` (holding `db`): it succeeds, advances the counter, touches
no unrelated board, appends exactly the root note (id `genId c`) to
`bid`, collects back to a snapshot of the same shape, creates only
fresh board keys, creates only fresh notes with fresh asset copies,
only appends fresh names to the store, and keeps keys unique. -/
def PasteNodeOut (snap : Snapshot) (bid : String) (pos : Option (ℚ × ℚ))
    (p : Project) (c : Nat) (store : List String) (db : Board) : Prop :=
  ∃ p2 c2 st2 n2,
    pasteSubtree snap bid pos p c store = some (p2, c2, st2)
    ∧ c < c2
    ∧ (∀ bk, bk ≠ bid → (∀ j, c ≤ j → j < c2 → bk ≠ genId j) →
        lookupA p2.boards bk = lookupA p.boards bk)
    ∧ lookupA p2.boards bid = some (boardAddNote db (genId c) n2)
    ∧ n2.id = genId c
    ∧ (∀ (q : Project) (fuel : Nat),
        (∀ j, c ≤ j → j < c2 → lookupA q.boards (genId j) = lookupA p2.boards (genId j)) →
        snapSize snap < fuel →
        ∃ s2, collectSubtree fuel q n2 = some s2 ∧ snapShape s2 = snapShape snap)
    ∧ (∃ nb, p2.boards.map Prod.fst = p.boards.map Prod.fst ++ nb ∧ NewKeys c c2 nb)
    ∧ Prov p p2 c c2 store st2
    ∧ (∃ d, st2 = store ++ d ∧ StoreDelta c c2 d)
    ∧ KeysOK p2

/-- Full specification of the children loop of `_paste_subtree` on the
snapshot list `cs` into the board `cb` (holding `cbB`): analogous to
`PasteNodeOut`, with the appended note list `NEW` made explicit. -/
def PasteListOut (cs : List Snapshot) (cb : String) (p : Project) (c : Nat)
    (store : List String) (cbB : Board) : Prop :=
  ∃ p2 c2 st2 NEW,
    pasteList cs cb p c store = some (p2, c2, st2)
    ∧ c ≤ c2
    ∧ (∀ bk, bk ≠ cb → (∀ j, c ≤ j → j < c2 → bk ≠ genId j) →
        lookupA p2.boards bk = lookupA p.boards bk)
    ∧ lookupA p2.boards cb = some (boardAddAll cbB NEW)
    ∧ (∀ kv ∈ NEW, ∃ j, c ≤ j ∧ j < c2 ∧ kv.1 = genId j)
    ∧ (NEW.map Prod.fst).Nodup
    ∧ (∀ (q : Project) (bq : Board) (fuel : Nat),
        (∀ j, c ≤ j → j < c2 → lookupA q.boards (genId j) = lookupA p2.boards (genId j)) →
        (∀ kv ∈ NEW, lookupA bq.items kv.1 = some kv.2) →
        snapSizeList cs < fuel →
        ∃ ss, collectChildren fuel q bq (NEW.map Prod.fst) = some ss
          ∧ snapShapeList ss = snapShapeList cs)
    ∧ (∃ nb, p2.boards.map Prod.fst = p.boards.map Prod.fst ++ nb ∧ NewKeys c c2 nb)
    ∧ Prov p p2 c c2 store st2
    ∧ (∃ d, st2 = store ++ d ∧ StoreDelta c c2 d)
    ∧ KeysOK p2

-- ==================================================================
-- THEOREMS
-- ==================================================================

-- ------------------------------------------------------------------
-- Association-list lemmas
-- ------------------------------------------------------------------

theorem lookupA_cons {α : Type} (k0 : String) (v : α) (tl : List (String × α))
    (key : String) :
    lookupA ((k0, v) :: tl) key = if k0 = key then some v else lookupA tl key := rfl

theorem updA_cons {α : Type} (k0 : String) (v : α) (tl : List (String × α))
    (key : String) (f : α → α) :
    updA ((k0, v) :: tl) key f
      = (if k0 = key then (k0, f v) else (k0, v)) :: updA tl key f := by
  by_cases h : k0 = key <;> simp [updA, h]

theorem eraseA_cons {α : Type} (k0 : String) (v : α) (tl : List (String × α))
    (key : String) :
    eraseA ((k0, v) :: tl) key
      = if k0 = key then tl else (k0, v) :: eraseA tl key := rfl

theorem lookupA_eq_none_iff {α : Type} (l : List (String × α)) (k : String) :
    lookupA l k = none ↔ k ∉ l.map Prod.fst := by
  induction l with
  | nil => simp [lookupA]
  | cons kv tl ih =>
    obtain ⟨k0, v⟩ := kv
    rw [lookupA_cons]
    by_cases h : k0 = k
    · subst h; simp
    · simp [h, ih, Ne.symm h]

theorem lookupA_updA_self {α : Type} (l : List (String × α)) (k : String) (f : α → α) :
    lookupA (updA l k f) k = (lookupA l k).map f := by
  induction l with
  | nil => rfl
  | cons kv tl ih =>
    obtain ⟨k0, v⟩ := kv
    rw [updA_cons]
    by_cases h : k0 = k
    · rw [if_pos h, lookupA_cons, if_pos h, lookupA_cons, if_pos h]
      rfl
    · rw [if_neg h, lookupA_cons, if_neg h, lookupA_cons, if_neg h, ih]

theorem lookupA_updA_ne {α : Type} (l : List (String × α)) (k k2 : String)
    (f : α → α) (h : k2 ≠ k) :
    lookupA (updA l k f) k2 = lookupA l k2 := by
  induction l with
  | nil => rfl
  | cons kv tl ih =>
    obtain ⟨k0, v⟩ := kv
    rw [updA_cons]
    by_cases h0 : k0 = k
    · have hne : k0 ≠ k2 := fun hh => h (hh.symm.trans h0)
      rw [if_pos h0, lookupA_cons, lookupA_cons, if_neg hne, if_neg hne, ih]
    · rw [if_neg h0, lookupA_cons, lookupA_cons]
      by_cases h2 : k0 = k2
      · rw [if_pos h2, if_pos h2]
      · rw [if_neg h2, if_neg h2, ih]

theorem keys_updA {α : Type} (l : List (String × α)) (k : String) (f : α → α) :
    (updA l k f).map Prod.fst = l.map Prod.fst := by
  simp only [updA, List.map_map]
  refine List.map_congr_left ?_
  intro kv _
  by_cases h : kv.1 = k <;> simp [h]

theorem lookupA_append_none {α : Type} (l1 l2 : List (String × α)) (k : String)
    (h : lookupA l1 k = none) :
    lookupA (l1 ++ l2) k = lookupA l2 k := by
  induction l1 with
  | nil => rfl
  | cons kv tl ih =>
    obtain ⟨k0, v⟩ := kv
    rw [lookupA_cons] at h
    by_cases h0 : k0 = k
    · rw [if_pos h0] at h
      exact Option.noConfusion h
    · rw [if_neg h0] at h
      rw [List.cons_append, lookupA_cons, if_neg h0]
      exact ih h

theorem lookupA_append_some {α : Type} (l1 l2 : List (String × α)) (k : String)
    (v : α) (h : lookupA l1 k = some v) :
    lookupA (l1 ++ l2) k = some v := by
  induction l1 with
  | nil => exact Option.noConfusion h
  | cons kv tl ih =>
    obtain ⟨k0, v0⟩ := kv
    rw [lookupA_cons] at h
    by_cases h0 : k0 = k
    · rw [if_pos h0] at h
      rw [List.cons_append, lookupA_cons, if_pos h0]
      exact h
    · rw [if_neg h0] at h
      rw [List.cons_append, lookupA_cons, if_neg h0]
      exact ih h

theorem lookupA_eraseA_self {α : Type} (l : List (String × α)) (k : String)
    (h : (l.map Prod.fst).Nodup) :
    lookupA (eraseA l k) k = none := by
  induction l with
  | nil => rfl
  | cons kv tl ih =>
    obtain ⟨k0, v⟩ := kv
    simp only [List.map_cons, List.nodup_cons] at h
    rw [eraseA_cons]
    by_cases h0 : k0 = k
    · rw [if_pos h0]
      rw [lookupA_eq_none_iff]
      rw [← h0]
      exact h.1
    · rw [if_neg h0, lookupA_cons, if_neg h0]
      exact ih h.2

theorem lookupA_eraseA_ne {α : Type} (l : List (String × α)) (k k2 : String)
    (h : k2 ≠ k) :
    lookupA (eraseA l k) k2 = lookupA l k2 := by
  induction l with
  | nil => rfl
  | cons kv tl ih =>
    obtain ⟨k0, v⟩ := kv
    rw [eraseA_cons]
    by_cases h0 : k0 = k
    · have hne : k0 ≠ k2 := fun hh => h (hh.symm.trans h0)
      rw [if_pos h0, lookupA_cons, if_neg hne]
    · rw [if_neg h0, lookupA_cons, lookupA_cons]
      by_cases h2 : k0 = k2
      · rw [if_pos h2, if_pos h2]
      · rw [if_neg h2, if_neg h2, ih]

theorem isSome_lookupA_updA {α : Type} (l : List (String × α)) (k i : String)
    (f : α → α) :
    (lookupA (updA l k f) i).isSome = (lookupA l i).isSome := by
  by_cases h : i = k
  · subst h
    rw [lookupA_updA_self]
    cases lookupA l i <;> rfl
  · rw [lookupA_updA_ne l k i f h]

-- ------------------------------------------------------------------
-- Small list lemmas
-- ------------------------------------------------------------------

theorem getLast?_app_single {α : Type} (l : List α) (a : α) :
    (l ++ [a]).getLast? = some a :=
  List.getLast?_concat l

theorem dropLast_app_single {α : Type} (l : List α) (a : α) :
    (l ++ [a]).dropLast = l :=
  List.dropLast_concat

-- ------------------------------------------------------------------
-- Persistence round-trip (C1) and load-or-create (C8)
-- ------------------------------------------------------------------

theorem loadNote_saveNote (n : Note) (h : n.type ≠ "idea" → n.child_board_id = none) :
    loadNote (saveNote n) = n := by
  cases n with
  | mk id ty pos size z child pl =>
    by_cases hty : ty = "idea" <;>
      simp_all [loadNote, saveNote]

theorem loadBoard_saveBoard (b : Board)
    (h : ∀ nk ∈ b.items, nk.2.type ≠ "idea" → nk.2.child_board_id = none) :
    loadBoard (saveBoard b) = b := by
  cases b with
  | mk id title order items =>
    simp only [loadBoard, saveBoard, List.map_map]
    congr 1
    conv_rhs => rw [← List.map_id items]
    refine List.map_congr_left ?_
    intro kv hkv
    simp only [Function.comp_apply, id_eq]
    rw [loadNote_saveNote kv.2 (h kv hkv)]

/-- C1, counterexample: the claim `load(save(P)) = P` (with `last_opened`
restored) is false — `save_project` writes `time.time()` into
`last_opened`, so saving `pC1` (whose `last_opened` is `0`) at time `1`
and loading yields a project whose `last_opened` is `1`. -/
theorem claim_C1_counterexample : loadProject (saveProject pC1 1) ≠ pC1 := by
  decide

/-- C1, amended: for every project satisfying the §3 invariant
(`child_board_id = None` off `idea` notes), loading the record saved at
time `now` restores every board, note and payload field as well as
`version`, `project_id` and `root_board_id` exactly, while `last_opened`
comes back as the save-time stamp `now` instead of the original value. -/
theorem claim_C1 (p : Project) (now : ℚ) (h : ChildInv p) :
    loadProject (saveProject p now) = { p with last_opened := now } := by
  cases p with
  | mk ver pid root boards lastop =>
    simp only [loadProject, saveProject, List.map_map]
    congr 1
    conv_rhs => rw [← List.map_id boards]
    refine List.map_congr_left ?_
    intro kv hkv
    simp only [Function.comp_apply, id_eq]
    rw [loadBoard_saveBoard kv.2 (fun nk hnk => h kv hkv nk hnk)]

/-- C1 witness: the amended round-trip at the concrete project `pC1`. -/
theorem claim_C1_witness :
    ChildInv pC1 ∧ loadProject (saveProject pC1 1) = { pC1 with last_opened := 1 } :=
  ⟨by simp [ChildInv, pC1], claim_C1 pC1 1 (by simp [ChildInv, pC1])⟩

/-- C8: loading a missing file returns a fresh empty project — exactly
one board, which `root_board_id` resolves to, containing no notes — and
never fails (the model function is total on the missing-file branch). -/
theorem claim_C8 (c : Nat) (tmod : ℚ) :
    (load_project none c tmod).boards.length = 1
    ∧ lookupA (load_project none c tmod).boards (load_project none c tmod).root_board_id
        = some { id := genId c, title := "Raíz", items_order := [], items := [] }
    ∧ ∀ kv ∈ (load_project none c tmod).boards, kv.2.items = [] := by
  refine ⟨rfl, ?_, ?_⟩ <;> simp [load_project, emptyProject, lookupA]

-- ------------------------------------------------------------------
-- Navigation history (C7)
-- ------------------------------------------------------------------

theorem go_to_board_current (s : NavState) (bid : String) :
    (go_to_board s bid true).current_board_id = bid := by
  by_cases h : bid = s.current_board_id <;> simp [go_to_board, push_mru, h]

theorem go_to_board_stacks_ne (s : NavState) (bid : String)
    (h : bid ≠ s.current_board_id) :
    (go_to_board s bid true).back_stack = s.back_stack ++ [s.current_board_id]
    ∧ (go_to_board s bid true).forward_stack = [] := by
  simp [go_to_board, push_mru, h]

theorem go_back_step (s : NavState) (l : List String) (a : String)
    (h : s.back_stack = l ++ [a]) :
    (go_back s).current_board_id = a ∧ (go_back s).back_stack = l
    ∧ (go_back s).forward_stack = s.forward_stack ++ [s.current_board_id] := by
  simp [go_back, h, getLast?_app_single, dropLast_app_single, push_mru]

theorem go_forward_step (s : NavState) (l : List String) (a : String)
    (h : s.forward_stack = l ++ [a]) :
    (go_forward s).current_board_id = a := by
  simp [go_forward, h, getLast?_app_single, push_mru]

/-- C7: after `enter X; enter Y` (distinct boards), `back` makes X
current and a following `forward` makes Y current again; and `back` on
an empty back stack leaves current board, back stack and forward stack
(indeed the whole navigation state) unchanged. -/
theorem claim_C7 (s t : NavState) (X Y : String) (hXY : X ≠ Y)
    (ht : t.back_stack = []) :
    ((go_back (go_to_board (go_to_board s X true) Y true)).current_board_id = X
      ∧ (go_forward (go_back (go_to_board (go_to_board s X true) Y true))).current_board_id = Y)
    ∧ go_back t = t := by
  constructor
  · have hc1 : (go_to_board s X true).current_board_id = X :=
      go_to_board_current s X
    have hne : Y ≠ (go_to_board s X true).current_board_id := by
      rw [hc1]; exact hXY.symm
    obtain ⟨hb2, hf2⟩ := go_to_board_stacks_ne (go_to_board s X true) Y hne
    rw [hc1] at hb2
    have hc2 : (go_to_board (go_to_board s X true) Y true).current_board_id = Y :=
      go_to_board_current (go_to_board s X true) Y
    obtain ⟨hbc, hbb, hbf⟩ :=
      go_back_step (go_to_board (go_to_board s X true) Y true)
        (go_to_board s X true).back_stack X hb2
    refine ⟨hbc, ?_⟩
    rw [hf2, hc2] at hbf
    exact go_forward_step _ [] Y hbf
  · have h1 : t.back_stack.getLast? = none := by simp [ht]
    simp [go_back, h1]

/-- C7 witness: the history property at a concrete navigation state. -/
theorem claim_C7_witness :
    ((go_back (go_to_board (go_to_board ⟨"r", [], [], []⟩ "x" true) "y" true)).current_board_id = "x"
      ∧ (go_forward (go_back (go_to_board (go_to_board ⟨"r", [], [], []⟩ "x" true) "y" true))).current_board_id = "y")
    ∧ go_back ⟨"t", [], [], []⟩ = ⟨"t", [], [], []⟩ :=
  claim_C7 ⟨"r", [], [], []⟩ ⟨"t", [], [], []⟩ "x" "y" (by decide) rfl

-- ------------------------------------------------------------------
-- Refresh lemma and nesting (C5, C6)
-- ------------------------------------------------------------------

theorem boardSetChild_items (bd : Board) (t c2 : String) :
    (boardSetChild bd t c2).items
      = updA bd.items t (fun n => { n with child_board_id := some c2 }) := rfl

theorem boardSetChild_order (bd : Board) (t c2 : String) :
    (boardSetChild bd t c2).items_order = bd.items_order := rfl

theorem boardDropNote_items (bd : Board) (nid : String) :
    (boardDropNote bd nid).items = eraseA bd.items nid := rfl

theorem boardDropNote_order (bd : Board) (nid : String) :
    (boardDropNote bd nid).items_order = bd.items_order.erase nid := rfl

theorem withBoards_boards (p : Project) (bl : List (String × Board)) :
    (withBoards p bl).boards = bl := rfl

theorem refreshBoard_clean (bd : Board)
    (h : ∀ i ∈ bd.items_order, (lookupA bd.items i).isSome) :
    refreshBoard bd = bd := by
  unfold refreshBoard
  split
  · rfl
  · have hf : bd.items_order.filter (fun nid => (lookupA bd.items nid).isSome)
        = bd.items_order :=
      List.filter_eq_self.mpr (fun a ha => h a ha)
    rw [hf]

/-- The mutating path of `nest_note_into`: with the dragged note and an
idea target (distinct from it) in the current board, and the child-board
side conditions satisfied, the dragged note is moved into the target's
child board and removed from the current board exactly once. -/
theorem nest_success (p : Project) (cur : String) (c : Nat)
    (dragged tgtid : String) (b : Board) (src tgt : Note)
    (hb : lookupA p.boards cur = some b)
    (hkeys : (b.items.map Prod.fst).Nodup)
    (hclean : ∀ i ∈ b.items_order, (lookupA b.items i).isSome)
    (hnodupo : b.items_order.Nodup)
    (hsrc : lookupA b.items dragged = some src)
    (htgt : lookupA b.items tgtid = some tgt)
    (hne : dragged ≠ tgtid)
    (hidea : tgt.type = "idea")
    (hready : nestReady p c tgt dragged) :
    ∃ q c1 b1, nest_note_into p cur c dragged tgtid = some (q, c1)
      ∧ lookupA q.boards cur = some b1
      ∧ lookupA b1.items dragged = none
      ∧ b1.items_order = b.items_order.erase dragged
      ∧ b1.items_order.count dragged = b.items_order.count dragged - 1
      ∧ ∃ cbid cb2, lookupA q.boards cbid = some cb2
          ∧ (lookupA cb2.items dragged).isSome := by
  cases htc : truthyChild tgt with
  | some cb =>
    obtain ⟨cbd, hcbd, hnotin⟩ := hready.2 cb htc
    have hcbne : cb ≠ cur := by
      intro hcc
      rw [hcc, hb] at hcbd
      injection hcbd with hcbd
      rw [← hcbd] at hnotin
      rw [hsrc] at hnotin
      exact Option.noConfusion hnotin
    have hdropclean : ∀ i ∈ (boardDropNote b dragged).items_order,
        (lookupA (boardDropNote b dragged).items i).isSome := by
      intro i hi
      have hi2 := (List.Nodup.mem_erase_iff hnodupo).mp hi
      rw [boardDropNote, lookupA_eraseA_ne b.items dragged i hi2.1]
      exact hclean i hi2.2
    have hlook3 : lookupA (updA (updA p.boards cur (fun bd => boardDropNote bd dragged))
        cb (fun bd => boardAddNote bd dragged { src with pos := ((40 : ℚ), (40 : ℚ)) }))
        cur = some (boardDropNote b dragged) := by
      rw [lookupA_updA_ne _ _ _ _ (Ne.symm hcbne), lookupA_updA_self, hb]
      rfl
    have haddlook : lookupA (boardAddNote cbd dragged
        { src with pos := ((40 : ℚ), (40 : ℚ)) }).items dragged
        = some { src with pos := ((40 : ℚ), (40 : ℚ)) } := by
      show lookupA (cbd.items ++ [(dragged, _)]) dragged = _
      rw [lookupA_append_none _ _ _ hnotin, lookupA_cons, if_pos rfl]
    refine ⟨withBoards p
        (updA (updA (updA p.boards cur (fun bd => boardDropNote bd dragged))
          cb (fun bd => boardAddNote bd dragged { src with pos := ((40 : ℚ), (40 : ℚ)) }))
          cur (fun _ => boardDropNote b dragged)),
      c, boardDropNote b dragged, ?_, ?_, ?_, rfl, ?_, cb,
      boardAddNote cbd dragged { src with pos := ((40 : ℚ), (40 : ℚ)) }, ?_, ?_⟩
    · simp only [nest_note_into, if_neg hne, hb, hsrc, htgt, if_pos hidea, htc,
        hcbd, hnotin, Option.isSome_none, Bool.false_eq_true, if_false,
        refreshIn, hlook3, refreshBoard_clean _ hdropclean, Option.map_some]
      rfl
    · show lookupA (updA _ cur (fun _ => boardDropNote b dragged)) cur = _
      rw [lookupA_updA_self, hlook3]
      rfl
    · exact lookupA_eraseA_self b.items dragged hkeys
    · exact List.count_erase_self dragged b.items_order
    · show lookupA (updA _ cur (fun _ => boardDropNote b dragged)) cb = _
      rw [lookupA_updA_ne _ _ _ _ hcbne, lookupA_updA_self,
        lookupA_updA_ne _ _ _ _ hcbne, hcbd]
      rfl
    · rw [haddlook]
      rfl
  | none =>
    have hfr : lookupA p.boards (genId c) = none := hready.1 htc
    have hcurne : cur ≠ genId c := by
      intro hcc
      rw [← hcc] at hfr
      rw [hb] at hfr
      exact Option.noConfusion hfr
    -- the board list after lazy child-board creation
    set BL : List (String × Board) :=
      updA p.boards cur (fun bd => boardSetChild bd tgtid (genId c))
        ++ [(genId c, freshChildBoard (genId c) tgt.payload.title)] with hBL
    have hlchild : lookupA BL (genId c)
        = some (freshChildBoard (genId c) tgt.payload.title) := by
      rw [hBL, lookupA_append_none]
      · rw [lookupA_cons, if_pos rfl]
      · rw [lookupA_updA_ne _ _ _ _ (Ne.symm hcurne)]
        exact hfr
    have hlcur : lookupA BL cur = some (boardSetChild b tgtid (genId c)) := by
      rw [hBL]
      apply lookupA_append_some
      rw [lookupA_updA_self, hb]
      rfl
    have hsetclean : ∀ i ∈ (boardSetChild b tgtid (genId c)).items_order,
        (lookupA (boardSetChild b tgtid (genId c)).items i).isSome := by
      intro i hi
      rw [boardSetChild_order] at hi
      rw [boardSetChild_items, isSome_lookupA_updA]
      exact hclean i hi
    have hsetkeys : ((boardSetChild b tgtid (genId c)).items.map Prod.fst).Nodup := by
      rw [boardSetChild_items, keys_updA]
      exact hkeys
    have hdropclean : ∀ i ∈ (boardDropNote (boardSetChild b tgtid (genId c)) dragged).items_order,
        (lookupA (boardDropNote (boardSetChild b tgtid (genId c)) dragged).items i).isSome := by
      intro i hi
      rw [boardDropNote_order, boardSetChild_order] at hi
      have hi2 := (List.Nodup.mem_erase_iff hnodupo).mp hi
      rw [boardDropNote_items, lookupA_eraseA_ne _ dragged i hi2.1]
      apply hsetclean
      rw [boardSetChild_order]
      exact hi2.2
    have hlook2 : lookupA (updA BL cur (fun bd => boardDropNote bd dragged))
        (genId c) = some (freshChildBoard (genId c) tgt.payload.title) := by
      rw [lookupA_updA_ne _ _ _ _ (Ne.symm hcurne)]
      exact hlchild
    have hlook3 : lookupA (updA (updA BL cur (fun bd => boardDropNote bd dragged))
        (genId c) (fun bd => boardAddNote bd dragged { src with pos := ((40 : ℚ), (40 : ℚ)) }))
        cur = some (boardDropNote (boardSetChild b tgtid (genId c)) dragged) := by
      rw [lookupA_updA_ne _ _ _ _ hcurne, lookupA_updA_self, hlcur]
      rfl
    have haddlook : lookupA (boardAddNote (freshChildBoard (genId c) tgt.payload.title)
        dragged { src with pos := ((40 : ℚ), (40 : ℚ)) }).items dragged
        = some { src with pos := ((40 : ℚ), (40 : ℚ)) } := by
      show lookupA ([] ++ [(dragged, _)]) dragged = _
      rw [List.nil_append, lookupA_cons, if_pos rfl]
    refine ⟨withBoards p
        (updA (updA (updA BL cur (fun bd => boardDropNote bd dragged))
          (genId c) (fun bd => boardAddNote bd dragged { src with pos := ((40 : ℚ), (40 : ℚ)) }))
          cur (fun _ => boardDropNote (boardSetChild b tgtid (genId c)) dragged)),
      c + 1, boardDropNote (boardSetChild b tgtid (genId c)) dragged,
      ?_, ?_, ?_, rfl, ?_, genId c,
      boardAddNote (freshChildBoard (genId c) tgt.payload.title) dragged
        { src with pos := ((40 : ℚ), (40 : ℚ)) }, ?_, ?_⟩
    · simp only [nest_note_into, if_neg hne, hb, hsrc, htgt, if_pos hidea, htc]
      simp only [← hBL, hlchild]
      simp only [freshChildBoard, lookupA, Option.isSome_none, Bool.false_eq_true,
        if_false, refreshIn, hlook3, refreshBoard_clean _ hdropclean, Option.map_some]
      rfl
    · show lookupA (updA _ cur (fun _ => boardDropNote (boardSetChild b tgtid (genId c)) dragged)) cur = _
      rw [lookupA_updA_self, hlook3]
      rfl
    · show lookupA (eraseA (boardSetChild b tgtid (genId c)).items dragged) dragged = none
      exact lookupA_eraseA_self _ dragged hsetkeys
    · exact List.count_erase_self dragged b.items_order
    · show lookupA (updA _ cur (fun _ => boardDropNote (boardSetChild b tgtid (genId c)) dragged)) (genId c) = _
      rw [lookupA_updA_ne _ _ _ _ (Ne.symm hcurne), lookupA_updA_self, hlook2]
      rfl
    · rw [haddlook]
      rfl

/-- C6: self-nesting, and nesting into an idea whose existing child
board already contains the dragged note, leave the project (and the
fresh-id counter) unchanged. -/
theorem claim_C6 (p : Project) (cur : String) (c : Nat) (dragged target : String)
    (b : Board) (tgt : Note) (cb : String) (cbd : Board)
    (hb : lookupA p.boards cur = some b)
    (ht : lookupA b.items target = some tgt)
    (hidea : tgt.type = "idea")
    (hcb : truthyChild tgt = some cb)
    (hcbd : lookupA p.boards cb = some cbd)
    (hin : (lookupA cbd.items dragged).isSome) :
    nest_note_into p cur c dragged dragged = some (p, c)
    ∧ nest_note_into p cur c dragged target = some (p, c) := by
  refine ⟨by simp [nest_note_into], ?_⟩
  by_cases hd : dragged = target
  · simp [nest_note_into, hd]
  · cases hsrc : lookupA b.items dragged with
    | none =>
        simp [nest_note_into, hd, hb, ht, hsrc]
    | some src =>
        simp [nest_note_into, hd, hb, ht, hsrc, hidea, hcb, hcbd, hin]

/-- C6 witness: both no-ops at a concrete project. -/
theorem claim_C6_witness :
    nest_note_into pC6 "root" 0 "d" "d" = some (pC6, 0)
    ∧ nest_note_into pC6 "root" 0 "d" "t" = some (pC6, 0) :=
  claim_C6 pC6 "root" 0 "d" "t" rootBoardC6 noteT "cb" childBoardC6
    rfl rfl rfl rfl rfl rfl

theorem containsA_C5 : noteContains noteA (95, 50) = true := by
  norm_num [noteContains, noteA]

theorem containsB_C5 : noteContains noteB (95, 50) = true := by
  norm_num [noteContains, noteB]

theorem findC5 : findNestTarget [noteA, noteB] "a" (95, 50) = some noteB := by
  simp only [findNestTarget, List.filter, containsA_C5, containsB_C5]
  simp [noteA, noteB, List.find?]

/-- C5, counterexample: the claimed 35%-area threshold does not exist in
the code.  Note `A` overlaps idea note `B` on only 10% of `A`'s area,
yet releasing the drag at a point inside `B`'s bounds reparents `A`:
after the release, `A` is gone from the root board's item map and order
list. -/
theorem claim_C5_counterexample :
    100 * specOverlapArea noteA noteB < 35 * specArea noteA
    ∧ ((mouseReleaseNest pC5 "root" 0 [noteA, noteB] "a" (95, 50)).bind
        (fun r => (lookupA r.1.boards "root").map
          (fun bd => ((lookupA bd.items "a").isNone, bd.items_order))))
      = some (true, ["b"]) := by
  constructor
  · norm_num [specOverlapArea, specArea, qmin, qmax, noteA, noteB]
  · have h1 : mouseReleaseNest pC5 "root" 0 [noteA, noteB] "a" (95, 50)
        = nest_note_into pC5 "root" 0 "a" noteB.id := by
      simp only [mouseReleaseNest, findC5]
    rw [h1]
    decide

/-- C5, amended: the release of a drag of note `A` reparents it if and
only if the topmost idea note other than `A` under the release *point*
exists (no overlap-area ratio is consulted): if the hit test finds no
target nothing changes, and if it finds one (with the dragged note in
the current board and the child-board side conditions satisfied) then
`A` is removed from the current board's map and from its order list
exactly once, and lands in the target's child board. -/
theorem claim_C5 (p : Project) (cur : String) (c : Nat) (stack : List Note)
    (dragged : String) (pt : ℚ × ℚ) (b : Board)
    (hb : lookupA p.boards cur = some b)
    (hkeys : (b.items.map Prod.fst).Nodup)
    (hstack : ∀ n ∈ stack, lookupA b.items n.id = some n)
    (hclean : ∀ i ∈ b.items_order, (lookupA b.items i).isSome)
    (hnodupo : b.items_order.Nodup) :
    (findNestTarget stack dragged pt = none →
      mouseReleaseNest p cur c stack dragged pt = some (p, c))
    ∧ ∀ tgt, findNestTarget stack dragged pt = some tgt →
        (lookupA b.items dragged).isSome →
        nestReady p c tgt dragged →
        ∃ q c1 b1, mouseReleaseNest p cur c stack dragged pt = some (q, c1)
          ∧ lookupA q.boards cur = some b1
          ∧ lookupA b1.items dragged = none
          ∧ b1.items_order = b.items_order.erase dragged
          ∧ b1.items_order.count dragged = b.items_order.count dragged - 1
          ∧ ∃ cbid cb2, lookupA q.boards cbid = some cb2
              ∧ (lookupA cb2.items dragged).isSome := by
  constructor
  · intro h
    simp [mouseReleaseNest, h]
  · intro tgt hfind hsome hready
    obtain ⟨src, hsrc⟩ := Option.isSome_iff_exists.mp hsome
    have hfind2 : (stack.filter (fun n => noteContains n pt)).find?
        (fun n => decide (n.id ≠ dragged) && decide (n.type = "idea")) = some tgt := hfind
    have hpred := List.find?_some hfind2
    rw [Bool.and_eq_true, decide_eq_true_iff, decide_eq_true_iff] at hpred
    have hmem : tgt ∈ stack :=
      (List.mem_filter.mp (List.mem_of_find?_eq_some hfind2)).1
    have htgt : lookupA b.items tgt.id = some tgt := hstack tgt hmem
    have hres := nest_success p cur c dragged tgt.id b src tgt hb hkeys hclean
      hnodupo hsrc htgt (Ne.symm hpred.1) hpred.2 hready
    rw [mouseReleaseNest, hfind]
    exact hres

/-- C5 witness: the amended statement evaluated on the concrete scene of
the counterexample — the hit test finds `B`, and `A` is moved. -/
theorem claim_C5_witness :
    ∃ q c1 b1, mouseReleaseNest pC5 "root" 0 [noteA, noteB] "a" (95, 50) = some (q, c1)
      ∧ lookupA q.boards "root" = some b1
      ∧ lookupA b1.items "a" = none
      ∧ b1.items_order = rootBoardC5.items_order.erase "a"
      ∧ b1.items_order.count "a" = rootBoardC5.items_order.count "a" - 1
      ∧ ∃ cbid cb2, lookupA q.boards cbid = some cb2
          ∧ (lookupA cb2.items "a").isSome :=
  (claim_C5 pC5 "root" 0 [noteA, noteB] "a" (95, 50) rootBoardC5 rfl
      (by decide) (by decide) (by decide) (by decide)).2
    noteB findC5 (by decide)
    ⟨fun _ => by decide, fun cb h => Option.noConfusion h⟩

-- ------------------------------------------------------------------
-- Delete without cascade approval (C2)
-- ------------------------------------------------------------------

/-- C2: deleting an idea note that has a child board without cascade
approval aborts before any mutation: the project value is returned
unchanged (the note stays in its board's map and order list, and no
board is removed). -/
theorem claim_C2 (fuel : Nat) (p : Project) (cur nid : String) (b : Board) (n : Note)
    (hb : lookupA p.boards cur = some b)
    (hn : lookupA b.items nid = some n)
    (hidea : n.type = "idea")
    (hchild : (truthyChild n).isSome) :
    delete_note fuel p cur nid false = some p := by
  obtain ⟨cb, hcb⟩ := Option.isSome_iff_exists.mp hchild
  simp [delete_note, hb, hn, ideaLink, hidea, hcb]

/-- C2 witness: the aborted delete at a concrete project. -/
theorem claim_C2_witness : delete_note 1 pC6 "root" "t" false = some pC6 :=
  claim_C2 1 pC6 "root" "t" rootBoardC6 noteT rfl rfl rfl (by decide)

-- ------------------------------------------------------------------
-- removeKeys / sumW lemmas
-- ------------------------------------------------------------------

theorem removeKeys_nil {α : Type} (l : List (String × α)) : removeKeys l [] = l := by
  simp [removeKeys]

theorem removeKeys_cons_mem {α : Type} (k0 : String) (v : α) (tl : List (String × α))
    (ks : List String) (h : k0 ∈ ks) :
    removeKeys ((k0, v) :: tl) ks = removeKeys tl ks := by
  simp [removeKeys, h]

theorem removeKeys_cons_not_mem {α : Type} (k0 : String) (v : α) (tl : List (String × α))
    (ks : List String) (h : k0 ∉ ks) :
    removeKeys ((k0, v) :: tl) ks = (k0, v) :: removeKeys tl ks := by
  simp [removeKeys, h]

theorem removeKeys_congr {α : Type} (l : List (String × α)) (ks1 ks2 : List String)
    (h : ∀ x, x ∈ ks1 ↔ x ∈ ks2) :
    removeKeys l ks1 = removeKeys l ks2 := by
  simp only [removeKeys]
  refine List.filter_congr ?_
  intro kv _
  simp [h kv.1]

theorem removeKeys_append {α : Type} (l : List (String × α)) (ks1 ks2 : List String) :
    removeKeys l (ks1 ++ ks2) = removeKeys (removeKeys l ks1) ks2 := by
  simp only [removeKeys, List.filter_filter]
  refine List.filter_congr ?_
  intro kv _
  by_cases h1 : kv.1 ∈ ks1 <;> by_cases h2 : kv.1 ∈ ks2 <;> simp [h1, h2]

theorem lookupA_removeKeys_not_mem {α : Type} (l : List (String × α)) (ks : List String)
    (k : String) (h : k ∉ ks) :
    lookupA (removeKeys l ks) k = lookupA l k := by
  induction l with
  | nil => rfl
  | cons kv tl ih =>
    obtain ⟨k0, v⟩ := kv
    by_cases h0 : k0 ∈ ks
    · have hne : k0 ≠ k := fun he => h (he ▸ h0)
      rw [removeKeys_cons_mem _ _ _ _ h0, ih, lookupA_cons, if_neg hne]
    · rw [removeKeys_cons_not_mem _ _ _ _ h0, lookupA_cons, lookupA_cons]
      by_cases h2 : k0 = k
      · rw [if_pos h2, if_pos h2]
      · rw [if_neg h2, if_neg h2, ih]

theorem lookupA_removeKeys_mem {α : Type} (l : List (String × α)) (ks : List String)
    (k : String) (h : k ∈ ks) :
    lookupA (removeKeys l ks) k = none := by
  rw [lookupA_eq_none_iff]
  intro hmem
  obtain ⟨kv, hkv, hfst⟩ := List.mem_map.mp hmem
  simp only [removeKeys] at hkv
  have h2 := (List.mem_filter.mp hkv).2
  rw [hfst] at h2
  simp at h2
  exact h2 h

theorem keys_removeKeys {α : Type} (l : List (String × α)) (ks : List String) :
    (removeKeys l ks).map Prod.fst
      = (l.map Prod.fst).filter (fun x => !(decide (x ∈ ks))) := by
  induction l with
  | nil => rfl
  | cons kv tl ih =>
    obtain ⟨k0, v⟩ := kv
    by_cases h0 : k0 ∈ ks
    · rw [removeKeys_cons_mem _ _ _ _ h0, ih]
      simp [List.filter_cons, h0]
    · rw [removeKeys_cons_not_mem _ _ _ _ h0]
      simp [List.filter_cons, h0, ih]

theorem removeKeys_of_disjoint {α : Type} (l : List (String × α)) (ks : List String)
    (h : ∀ k ∈ ks, k ∉ l.map Prod.fst) :
    removeKeys l ks = l := by
  simp only [removeKeys]
  apply List.filter_eq_self.mpr
  intro kv hkv
  simp only [Bool.not_eq_true', decide_eq_false_iff_not]
  intro hmem
  exact h kv.1 hmem (List.mem_map.mpr ⟨kv, hkv, rfl⟩)

theorem length_filter_keys (ks : List String) : ∀ (xs : List String), ks.Nodup →
    (∀ k ∈ ks, k ∈ xs) → xs.Nodup →
    (xs.filter (fun x => !(decide (x ∈ ks)))).length + ks.length = xs.length := by
  induction ks with
  | nil => intro xs _ _ _; simp
  | cons k ks ih =>
    intro xs hnd hsub hxs
    rw [List.nodup_cons] at hnd
    have hsplit : xs.filter (fun x => !(decide (x ∈ k :: ks)))
        = (xs.filter (fun x => !(decide (x = k)))).filter (fun x => !(decide (x ∈ ks))) := by
      rw [List.filter_filter]
      refine List.filter_congr ?_
      intro x _
      by_cases hx1 : x = k <;> by_cases hx2 : x ∈ ks <;> simp [hx1, hx2]
    have herase : xs.filter (fun x => !(decide (x = k))) = xs.erase k := by
      have hfn : (fun x => !(decide (x = k))) = (fun x : String => x != k) := by
        funext x
        by_cases h : x = k <;> simp [h, bne]
      rw [hfn]
      exact (List.Nodup.erase_eq_filter hxs k).symm
    have hk : k ∈ xs := hsub k (List.mem_cons_self _ _)
    have hlen := List.length_erase_of_mem hk
    have hpos := List.length_pos_of_mem hk
    have hsub2 : ∀ k2 ∈ ks, k2 ∈ xs.erase k := by
      intro k2 hk2
      have hne : k2 ≠ k := fun he => hnd.1 (he ▸ hk2)
      exact (List.mem_erase_of_ne hne).mpr (hsub k2 (List.mem_cons_of_mem _ hk2))
    have hih := ih (xs.erase k) hnd.2 hsub2 (hxs.erase k)
    rw [hsplit, herase]
    simp only [List.length_cons]
    omega

theorem length_removeKeys {α : Type} (l : List (String × α)) (ks : List String)
    (hks : ks.Nodup) (hsub : ∀ k ∈ ks, k ∈ l.map Prod.fst)
    (hkeys : (l.map Prod.fst).Nodup) :
    (removeKeys l ks).length + ks.length = l.length := by
  have h1 : (removeKeys l ks).length
      = ((l.map Prod.fst).filter (fun x => !(decide (x ∈ ks)))).length := by
    rw [← keys_removeKeys, List.length_map]
  have h2 := length_filter_keys ks (l.map Prod.fst) hks hsub hkeys
  have h3 : (l.map Prod.fst).length = l.length := List.length_map _ _
  omega

theorem sumW_cons (w : Board → Nat) (k0 : String) (b0 : Board)
    (tl : List (String × Board)) :
    sumW w ((k0, b0) :: tl) = w b0 + sumW w tl := by
  simp [sumW]

theorem sumW_removeSingle (w : Board → Nat) (l : List (String × Board)) (k : String)
    (hkeys : (l.map Prod.fst).Nodup) (b : Board) (hb : lookupA l k = some b) :
    sumW w (removeKeys l [k]) + w b = sumW w l := by
  induction l with
  | nil => exact Option.noConfusion hb
  | cons kv tl ih =>
    obtain ⟨k0, b0⟩ := kv
    rw [List.map_cons, List.nodup_cons] at hkeys
    rw [lookupA_cons] at hb
    by_cases h0 : k0 = k
    · rw [if_pos h0] at hb
      injection hb with hb
      subst hb
      rw [removeKeys_cons_mem _ _ _ _ (by simp [h0])]
      rw [removeKeys_of_disjoint tl [k] ?_]
      · rw [sumW_cons]
        omega
      · intro k2 hk2
        simp only [List.mem_singleton] at hk2
        subst hk2
        exact h0 ▸ hkeys.1
    · rw [if_neg h0] at hb
      rw [removeKeys_cons_not_mem _ _ _ _ (by simp [h0])]
      rw [sumW_cons, sumW_cons]
      have := ih hkeys.2 hb
      omega

theorem sumW_removeKeys (w : Board → Nat) (ks : List String) :
    ∀ (l : List (String × Board)), ks.Nodup →
    (∀ k ∈ ks, (lookupA l k).isSome) → ((l.map Prod.fst).Nodup) →
    sumW w (removeKeys l ks) + (ks.map (fun k => wOf w l k)).sum = sumW w l := by
  induction ks with
  | nil => intro l _ _ _; simp [removeKeys_nil]
  | cons k ks ih =>
    intro l hnd hsome hkeys
    rw [List.nodup_cons] at hnd
    obtain ⟨b, hb⟩ := Option.isSome_iff_exists.mp (hsome k (List.mem_cons_self _ _))
    have hstep := sumW_removeSingle w l k hkeys b hb
    have hcons : removeKeys l (k :: ks) = removeKeys (removeKeys l [k]) ks := by
      have h := removeKeys_append l [k] ks
      simpa using h
    have hkeys1 : ((removeKeys l [k]).map Prod.fst).Nodup := by
      rw [keys_removeKeys]
      exact hkeys.filter _
    have hsome1 : ∀ k2 ∈ ks, (lookupA (removeKeys l [k]) k2).isSome := by
      intro k2 hk2
      rw [lookupA_removeKeys_not_mem]
      · exact hsome k2 (List.mem_cons_of_mem _ hk2)
      · simp only [List.mem_singleton]
        exact fun he => hnd.1 (he ▸ hk2)
    have hmap : ks.map (fun k2 => wOf w l k2)
        = ks.map (fun k2 => wOf w (removeKeys l [k]) k2) := by
      refine List.map_congr_left ?_
      intro k2 hk2
      rw [wOf, wOf, lookupA_removeKeys_not_mem]
      simp only [List.mem_singleton]
      exact fun he => hnd.1 (he ▸ hk2)
    have hih := ih (removeKeys l [k]) hnd.2 hsome1 hkeys1
    rw [hcons, List.map_cons, List.sum_cons, hmap]
    have hwof : wOf w l k = w b := by rw [wOf, hb]
    omega

theorem length_updA2 {α : Type} (l : List (String × α)) (k : String) (f : α → α) :
    (updA l k f).length = l.length := by
  simp [updA]

theorem updA_of_not_mem {α : Type} (l : List (String × α)) (k : String) (f : α → α)
    (h : k ∉ l.map Prod.fst) :
    updA l k f = l := by
  induction l with
  | nil => rfl
  | cons kv tl ih =>
    obtain ⟨k0, v⟩ := kv
    rw [List.map_cons] at h
    rw [updA_cons, if_neg (fun he => h (by rw [he]; exact List.mem_cons_self _ _))]
    rw [ih (fun hm => h (List.mem_cons_of_mem _ hm))]

theorem sumW_updA (w : Board → Nat) (l : List (String × Board)) (k : String)
    (f : Board → Board) (hkeys : (l.map Prod.fst).Nodup) (b : Board)
    (hb : lookupA l k = some b) :
    sumW w (updA l k f) + w b = sumW w l + w (f b) := by
  induction l with
  | nil => exact Option.noConfusion hb
  | cons kv tl ih =>
    obtain ⟨k0, b0⟩ := kv
    rw [List.map_cons, List.nodup_cons] at hkeys
    rw [lookupA_cons] at hb
    rw [updA_cons]
    by_cases h0 : k0 = k
    · rw [if_pos h0] at hb
      injection hb with hb
      subst hb
      rw [if_pos h0, sumW_cons, sumW_cons]
      rw [updA_of_not_mem tl k f (h0 ▸ hkeys.1)]
      omega
    · rw [if_neg h0] at hb
      rw [if_neg h0, sumW_cons, sumW_cons]
      have := ih hkeys.2 hb
      omega

theorem length_eraseA_mem {α : Type} (l : List (String × α)) (k : String)
    (v : α) (hv : lookupA l k = some v) :
    (eraseA l k).length + 1 = l.length := by
  induction l with
  | nil => exact Option.noConfusion hv
  | cons kv tl ih =>
    obtain ⟨k0, v0⟩ := kv
    rw [lookupA_cons] at hv
    rw [eraseA_cons]
    by_cases h0 : k0 = k
    · rw [if_pos h0]
      simp
    · rw [if_neg h0] at hv
      rw [if_neg h0]
      simp only [List.length_cons]
      have := ih hv
      omega

theorem lookupA_mem {α : Type} (l : List (String × α)) (k : String) (v : α)
    (h : lookupA l k = some v) :
    (k, v) ∈ l := by
  induction l with
  | nil => exact Option.noConfusion h
  | cons kv tl ih =>
    obtain ⟨k0, v0⟩ := kv
    rw [lookupA_cons] at h
    by_cases h0 : k0 = k
    · rw [if_pos h0] at h
      injection h with h
      subst h
      subst h0
      exact List.mem_cons_self _ _
    · rw [if_neg h0] at h
      exact List.mem_cons_of_mem _ (ih h)

theorem mem_eq_lookupA {α : Type} (l : List (String × α)) (kv : String × α)
    (hkeys : (l.map Prod.fst).Nodup) (h : kv ∈ l) :
    lookupA l kv.1 = some kv.2 := by
  induction l with
  | nil => cases h
  | cons kv0 tl ih =>
    obtain ⟨k0, v0⟩ := kv0
    rw [List.map_cons, List.nodup_cons] at hkeys
    rw [lookupA_cons]
    rcases List.mem_cons.mp h with h1 | h1
    · subst h1
      rw [if_pos rfl]
    · have hne : k0 ≠ kv.1 := by
        intro he
        exact hkeys.1 (he ▸ List.mem_map.mpr ⟨kv, h1, rfl⟩)
      rw [if_neg hne]
      exact ih hkeys.2 h1

theorem mem_eraseA_of_ne {α : Type} (l : List (String × α)) (k : String)
    (kv : String × α) (h : kv ∈ l) (hne : kv.1 ≠ k) :
    kv ∈ eraseA l k := by
  induction l with
  | nil => cases h
  | cons kv0 tl ih =>
    obtain ⟨k0, v0⟩ := kv0
    rw [eraseA_cons]
    by_cases h0 : k0 = k
    · rw [if_pos h0]
      rcases List.mem_cons.mp h with h1 | h1
      · exact absurd (h1 ▸ h0) hne
      · exact h1
    · rw [if_neg h0]
      rcases List.mem_cons.mp h with h1 | h1
      · subst h1
        exact List.mem_cons_self _ _
      · exact List.mem_cons_of_mem _ (ih h1)

theorem lookupA_isSome_mem {α : Type} (l : List (String × α)) (k : String)
    (h : (lookupA l k).isSome) :
    k ∈ l.map Prod.fst := by
  by_contra hc
  rw [← lookupA_eq_none_iff] at hc
  rw [hc] at h
  exact Bool.noConfusion h

-- ------------------------------------------------------------------
-- Subtree lemmas
-- ------------------------------------------------------------------

theorem bid_mem_bids (t : SubT) : SubT.bid t ∈ SubT.bids t := by
  obtain ⟨b, cs⟩ := t
  simp [SubT.bid, SubT.bids]

theorem mem_bidsListT_of_mem (ts : List SubT) (t : SubT) (x : String)
    (ht : t ∈ ts) (hx : x ∈ SubT.bids t) : x ∈ bidsListT ts := by
  induction ts with
  | nil => cases ht
  | cons t0 ts2 ih =>
    simp only [bidsListT, List.mem_append]
    rcases List.mem_cons.mp ht with h1 | h1
    · subst h1
      exact Or.inl hx
    · exact Or.inr (ih h1)

mutual

theorem Fits_stable (t : SubT) (p : Project) (ks : List String)
    (hf : Fits p t) (hd : ∀ b2 ∈ SubT.bids t, b2 ∉ ks) :
    Fits (withBoards p (removeKeys p.boards ks)) t := by
  obtain ⟨b, cs⟩ := t
  simp only [Fits] at hf ⊢
  obtain ⟨bd, hbd, hic, hfl⟩ := hf
  refine ⟨bd, ?_, hic, ?_⟩
  · show lookupA (removeKeys p.boards ks) b = some bd
    rw [lookupA_removeKeys_not_mem]
    · exact hbd
    · exact hd b (by simp [SubT.bids])
  · exact FitsList_stable cs p ks hfl
      (fun b2 hb2 => hd b2 (by simp only [SubT.bids, List.mem_cons]; exact Or.inr hb2))

theorem FitsList_stable (ts : List SubT) (p : Project) (ks : List String)
    (hf : FitsList p ts) (hd : ∀ b2 ∈ bidsListT ts, b2 ∉ ks) :
    FitsList (withBoards p (removeKeys p.boards ks)) ts := by
  cases ts with
  | nil => simp only [FitsList]
  | cons t ts2 =>
    simp only [FitsList] at hf ⊢
    refine ⟨Fits_stable t p ks hf.1 ?_, FitsList_stable ts2 p ks hf.2 ?_⟩
    · intro b2 hb2
      exact hd b2 (by simp only [bidsListT, List.mem_append]; exact Or.inl hb2)
    · intro b2 hb2
      exact hd b2 (by simp only [bidsListT, List.mem_append]; exact Or.inr hb2)

end

mutual

theorem Fits_closed (t : SubT) (p : Project) (hf : Fits p t) :
    ∀ b2 ∈ SubT.bids t, ∀ bd2, lookupA p.boards b2 = some bd2 →
      ∀ link ∈ ideaChildren bd2.items, link ∈ SubT.bids t := by
  obtain ⟨b, cs⟩ := t
  simp only [Fits] at hf
  obtain ⟨bd, hbd, hic, hfl⟩ := hf
  intro b2 hb2 bd2 hbd2 link hlink
  simp only [SubT.bids, List.mem_cons] at hb2 ⊢
  rcases hb2 with h1 | h1
  · subst h1
    rw [hbd] at hbd2
    injection hbd2 with hbd2
    subst hbd2
    rw [hic] at hlink
    obtain ⟨t0, ht0, hbid⟩ := List.mem_map.mp hlink
    exact Or.inr (mem_bidsListT_of_mem cs t0 link ht0 (hbid ▸ bid_mem_bids t0))
  · exact Or.inr (FitsList_closed cs p hfl b2 h1 bd2 hbd2 link hlink)

theorem FitsList_closed (ts : List SubT) (p : Project) (hf : FitsList p ts) :
    ∀ b2 ∈ bidsListT ts, ∀ bd2, lookupA p.boards b2 = some bd2 →
      ∀ link ∈ ideaChildren bd2.items, link ∈ bidsListT ts := by
  cases ts with
  | nil =>
    intro b2 hb2
    simp [bidsListT] at hb2
  | cons t ts2 =>
    simp only [FitsList] at hf
    intro b2 hb2 bd2 hbd2 link hlink
    simp only [bidsListT, List.mem_append] at hb2 ⊢
    rcases hb2 with h1 | h1
    · exact Or.inl (Fits_closed t p hf.1 b2 h1 bd2 hbd2 link hlink)
    · exact Or.inr (FitsList_closed ts2 p hf.2 b2 h1 bd2 hbd2 link hlink)

end

mutual

theorem Fits_present (t : SubT) (p : Project) (hf : Fits p t) :
    ∀ b2 ∈ SubT.bids t, (lookupA p.boards b2).isSome := by
  obtain ⟨b, cs⟩ := t
  simp only [Fits] at hf
  obtain ⟨bd, hbd, hic, hfl⟩ := hf
  intro b2 hb2
  simp only [SubT.bids, List.mem_cons] at hb2
  rcases hb2 with h1 | h1
  · subst h1
    rw [hbd]
    rfl
  · exact FitsList_present cs p hfl b2 h1

theorem FitsList_present (ts : List SubT) (p : Project) (hf : FitsList p ts) :
    ∀ b2 ∈ bidsListT ts, (lookupA p.boards b2).isSome := by
  cases ts with
  | nil =>
    intro b2 hb2
    simp [bidsListT] at hb2
  | cons t ts2 =>
    simp only [FitsList] at hf
    intro b2 hb2
    simp only [bidsListT, List.mem_append] at hb2
    rcases hb2 with h1 | h1
    · exact Fits_present t p hf.1 b2 h1
    · exact FitsList_present ts2 p hf.2 b2 h1

end

-- ------------------------------------------------------------------
-- Unfolding equations for the delete recursion
-- ------------------------------------------------------------------

theorem delChildren_nil (f : Nat) (p : Project) : delChildren f [] p = some p := by
  rw [delChildren]

theorem delChildren_cons_none (f : Nat) (k0 : String) (n : Note)
    (tl : List (String × Note)) (p : Project) (h : ideaLink n = none) :
    delChildren f ((k0, n) :: tl) p = delChildren f tl p := by
  conv_lhs => rw [delChildren]
  simp [h]

theorem delChildren_cons_some (f : Nat) (k0 : String) (n : Note)
    (tl : List (String × Note)) (p : Project) (cb : String) (h : ideaLink n = some cb) :
    delChildren f ((k0, n) :: tl) p
      = match deleteBoardRec f p cb with
        | none => none
        | some p1 => delChildren f tl p1 := by
  conv_lhs => rw [delChildren]
  simp [h]

theorem deleteBoardRec_succ (f : Nat) (p : Project) (bid : String) :
    deleteBoardRec (f + 1) p bid
      = match lookupA p.boards bid with
        | none => some p
        | some bd =>
          match delChildren f bd.items p with
          | none => none
          | some p1 => some (withBoards p1 (eraseA p1.boards bid)) := by
  rw [deleteBoardRec]

theorem eraseA_eq_removeSingle {α : Type} (l : List (String × α)) (b : String)
    (hkeys : (l.map Prod.fst).Nodup) :
    eraseA l b = removeKeys l [b] := by
  induction l with
  | nil => rfl
  | cons kv tl ih =>
    obtain ⟨k0, v⟩ := kv
    rw [List.map_cons, List.nodup_cons] at hkeys
    rw [eraseA_cons]
    by_cases h0 : k0 = b
    · rw [if_pos h0, removeKeys_cons_mem _ _ _ _ (by simp [h0])]
      rw [removeKeys_of_disjoint tl [b] ?_]
      intro k2 hk2
      simp only [List.mem_singleton] at hk2
      subst hk2
      exact h0 ▸ hkeys.1
    · rw [if_neg h0, removeKeys_cons_not_mem _ _ _ _ (by simp [h0]), ih hkeys.2]

-- ------------------------------------------------------------------
-- The delete recursion removes exactly the subtree's boards
-- ------------------------------------------------------------------

theorem delCh_spec (f : Nat)
    (hrec : ∀ t p, Fits p t → (SubT.bids t).Nodup → ((p.boards.map Prod.fst).Nodup) →
        SubT.size t < f →
        deleteBoardRec f p (SubT.bid t)
          = some (withBoards p (removeKeys p.boards (SubT.bids t)))) :
    ∀ (items : List (String × Note)) (cs : List SubT) (p : Project),
      ideaChildren items = cs.map SubT.bid → FitsList p cs →
      (bidsListT cs).Nodup → ((p.boards.map Prod.fst).Nodup) → sizeListT cs < f →
      delChildren f items p = some (withBoards p (removeKeys p.boards (bidsListT cs))) := by
  intro items
  induction items with
  | nil =>
    intro cs p hic hfl hnd hk hsz
    have hcs : cs = [] := by
      cases cs with
      | nil => rfl
      | cons t ts => simp [ideaChildren] at hic
    subst hcs
    rw [delChildren_nil]
    simp only [bidsListT, removeKeys_nil]
    rfl
  | cons kv tl ih =>
    intro cs p hic hfl hnd hk hsz
    obtain ⟨k0, n⟩ := kv
    cases hip : ideaLink n with
    | none =>
      have hic2 : ideaChildren tl = cs.map SubT.bid := by
        rw [← hic]
        simp [ideaChildren, List.filterMap_cons, hip]
      rw [delChildren_cons_none f k0 n tl p hip]
      exact ih cs p hic2 hfl hnd hk hsz
    | some cb =>
      have hic2 : cb :: ideaChildren tl = cs.map SubT.bid := by
        rw [← hic]
        simp [ideaChildren, List.filterMap_cons, hip]
      cases cs with
      | nil => simp at hic2
      | cons t0 cs2 =>
        rw [List.map_cons] at hic2
        injection hic2 with hcb hic3
        simp only [FitsList] at hfl
        obtain ⟨hf0, hfl2⟩ := hfl
        simp only [bidsListT] at hnd hsz ⊢
        simp only [sizeListT] at hsz
        rw [List.nodup_append] at hnd
        have hrec0 := hrec t0 p hf0 hnd.1 hk (by omega)
        rw [delChildren_cons_some f k0 n tl p cb hip, hcb, hrec0]
        have hred : (match some (withBoards p (removeKeys p.boards (SubT.bids t0))) with
            | none => none
            | some p1 => delChildren f tl p1)
            = delChildren f tl (withBoards p (removeKeys p.boards (SubT.bids t0))) := rfl
        rw [hred]
        have hfl2b : FitsList (withBoards p (removeKeys p.boards (SubT.bids t0))) cs2 :=
          FitsList_stable cs2 p (SubT.bids t0) hfl2
            (fun b2 hb2 hmem => hnd.2.2 hmem hb2)
        have hk2 : (((withBoards p (removeKeys p.boards (SubT.bids t0))).boards.map Prod.fst).Nodup) := by
          show ((removeKeys p.boards (SubT.bids t0)).map Prod.fst).Nodup
          rw [keys_removeKeys]
          exact hk.filter _
        have hih := ih cs2 (withBoards p (removeKeys p.boards (SubT.bids t0)))
          hic3 hfl2b hnd.2.1 hk2 (by omega)
        rw [hih]
        show _ = some (withBoards p (removeKeys p.boards (SubT.bids t0 ++ bidsListT cs2)))
        rw [removeKeys_append]
        rfl

theorem delRec_spec (fuel : Nat) : ∀ (t : SubT) (p : Project),
    Fits p t → (SubT.bids t).Nodup → ((p.boards.map Prod.fst).Nodup) →
    SubT.size t < fuel →
    deleteBoardRec fuel p (SubT.bid t)
      = some (withBoards p (removeKeys p.boards (SubT.bids t))) := by
  induction fuel with
  | zero =>
    intro t p _ _ _ h
    exact absurd h (Nat.not_lt_zero _)
  | succ f ih =>
    intro t p hf hnd hk hsz
    obtain ⟨b, cs⟩ := t
    simp only [Fits] at hf
    obtain ⟨bd, hbd, hic, hfl⟩ := hf
    simp only [SubT.bid]
    rw [deleteBoardRec_succ, hbd]
    simp only [SubT.bids, List.nodup_cons] at hnd
    simp only [SubT.size] at hsz
    have hch := delCh_spec f ih bd.items cs p hic hfl hnd.2 hk (by omega)
    show (match delChildren f bd.items p with
        | none => none
        | some p1 => some (withBoards p1 (eraseA p1.boards b))) = _
    rw [hch]
    have hkeys1 : ((removeKeys p.boards (bidsListT cs)).map Prod.fst).Nodup := by
      rw [keys_removeKeys]
      exact hk.filter _
    have her : eraseA (removeKeys p.boards (bidsListT cs)) b
        = removeKeys (removeKeys p.boards (bidsListT cs)) [b] :=
      eraseA_eq_removeSingle _ _ hkeys1
    show some (withBoards _ (eraseA (removeKeys p.boards (bidsListT cs)) b)) = _
    rw [her, ← removeKeys_append]
    rw [removeKeys_congr p.boards (bidsListT cs ++ [b]) (b :: bidsListT cs)
      (by intro x; simp [List.mem_append, or_comm])]
    simp only [SubT.bids]
    rfl

-- ------------------------------------------------------------------
-- Cascading delete (C3)
-- ------------------------------------------------------------------

/-- C3: deleting an idea note with cascade approval removes the note and
its entire child-board subtree: every descendant board id resolves to
nothing afterwards, the board count drops by exactly D (the number of
descendant boards), the total note count drops by exactly N + 1 (the
descendant notes plus the deleted note itself), and every remaining
non-root board is still referenced by some remaining note. -/
theorem claim_C3 (fuel : Nat) (p : Project) (cur nid : String) (b : Board) (n : Note)
    (t : SubT)
    (hkeys : (p.boards.map Prod.fst).Nodup)
    (hitems : (b.items.map Prod.fst).Nodup)
    (hb : lookupA p.boards cur = some b)
    (hn : lookupA b.items nid = some n)
    (hidea : n.type = "idea")
    (hcb : truthyChild n = some (SubT.bid t))
    (hfits : Fits p t)
    (hnd : (SubT.bids t).Nodup)
    (hcur : cur ∉ SubT.bids t)
    (hclean : ∀ i ∈ b.items_order, (lookupA b.items i).isSome)
    (hordnd : b.items_order.Nodup)
    (hreach : ReachInv p)
    (hfuel : SubT.size t < fuel) :
    ∃ q, delete_note fuel p cur nid true = some q
      ∧ (∀ b2 ∈ SubT.bids t, lookupA q.boards b2 = none)
      ∧ q.boards.length + (SubT.bids t).length = p.boards.length
      ∧ (∃ b1, lookupA q.boards cur = some b1 ∧ lookupA b1.items nid = none
           ∧ b1.items_order = b.items_order.erase nid)
      ∧ totalNotes q + notesOfBids p (SubT.bids t) + 1 = totalNotes p
      ∧ ReachInv q := by
  have hil : ideaLink n = some (SubT.bid t) := by
    rw [ideaLink, if_pos hidea]
    exact hcb
  have hdel := delRec_spec fuel t p hfits hnd hkeys hfuel
  have hlRKcur : lookupA (removeKeys p.boards (SubT.bids t)) cur = some b := by
    rw [lookupA_removeKeys_not_mem _ _ _ hcur]
    exact hb
  have hdropclean : ∀ i ∈ (boardDropNote b nid).items_order,
      (lookupA (boardDropNote b nid).items i).isSome := by
    intro i hi
    rw [boardDropNote_order] at hi
    have hi2 := (List.Nodup.mem_erase_iff hordnd).mp hi
    rw [boardDropNote_items, lookupA_eraseA_ne b.items nid i hi2.1]
    exact hclean i hi2.2
  have hlup : lookupA (updA (removeKeys p.boards (SubT.bids t)) cur
      (fun bd => boardDropNote bd nid)) cur = some (boardDropNote b nid) := by
    rw [lookupA_updA_self, hlRKcur]
    rfl
  have hpresent : ∀ k ∈ SubT.bids t, (lookupA p.boards k).isSome :=
    Fits_present t p hfits
  refine ⟨withBoards p
      (updA (updA (removeKeys p.boards (SubT.bids t)) cur (fun bd => boardDropNote bd nid))
        cur (fun _ => boardDropNote b nid)),
    ?_, ?_, ?_, ?_, ?_, ?_⟩
  · -- the run of delete_note
    simp only [delete_note, hb, hn, hil, if_pos rfl, hdel]
    simp only [refreshIn, withBoards_boards, hlup, refreshBoard_clean _ hdropclean]
    rfl
  · -- every descendant board is gone
    intro b2 hb2
    have hbne : b2 ≠ cur := fun he => hcur (he ▸ hb2)
    rw [withBoards_boards, lookupA_updA_ne _ _ _ _ hbne, lookupA_updA_ne _ _ _ _ hbne]
    exact lookupA_removeKeys_mem _ _ _ hb2
  · -- board count drops by exactly D
    rw [withBoards_boards, length_updA2, length_updA2]
    exact length_removeKeys p.boards (SubT.bids t) hnd
      (fun k hk => lookupA_isSome_mem _ _ (hpresent k hk)) hkeys
  · -- the deleted note is gone from the current board
    refine ⟨boardDropNote b nid, ?_, ?_, boardDropNote_order b nid⟩
    · rw [withBoards_boards, lookupA_updA_self, hlup]
      rfl
    · rw [boardDropNote_items]
      exact lookupA_eraseA_self b.items nid hitems
  · -- total note count drops by exactly N + 1
    have hkeysRK : ((removeKeys p.boards (SubT.bids t)).map Prod.fst).Nodup := by
      rw [keys_removeKeys]
      exact hkeys.filter _
    have hkeysU : ((updA (removeKeys p.boards (SubT.bids t)) cur
        (fun bd => boardDropNote bd nid)).map Prod.fst).Nodup := by
      rw [keys_updA]
      exact hkeysRK
    have hinner := sumW_updA (fun bd => bd.items.length)
      (removeKeys p.boards (SubT.bids t)) cur (fun bd => boardDropNote bd nid)
      hkeysRK b hlRKcur
    have houter := sumW_updA (fun bd => bd.items.length)
      (updA (removeKeys p.boards (SubT.bids t)) cur (fun bd => boardDropNote bd nid))
      cur (fun _ => boardDropNote b nid) hkeysU (boardDropNote b nid) hlup
    have hrk := sumW_removeKeys (fun bd => bd.items.length) (SubT.bids t) p.boards
      hnd hpresent hkeys
    have hlen := length_eraseA_mem b.items nid n hn
    simp only [totalNotes, withBoards_boards]
    simp only [] at hinner houter
    have hnb : notesOfBids p (SubT.bids t)
        = ((SubT.bids t).map (fun k => wOf (fun bd => bd.items.length) p.boards k)).sum := rfl
    rw [hnb]
    have hwd : (boardDropNote b nid).items.length = (eraseA b.items nid).length := rfl
    omega
  · -- remaining non-root boards are still referenced
    intro kv hkv hroot
    have hkv1 : kv.1 ∈ (withBoards p
        (updA (updA (removeKeys p.boards (SubT.bids t)) cur (fun bd => boardDropNote bd nid))
          cur (fun _ => boardDropNote b nid))).boards.map Prod.fst :=
      List.mem_map.mpr ⟨kv, hkv, rfl⟩
    rw [withBoards_boards, keys_updA, keys_updA, keys_removeKeys] at hkv1
    have hnotb : kv.1 ∉ SubT.bids t := by
      have h2 := (List.mem_filter.mp hkv1).2
      simpa using h2
    have hkp : kv.1 ∈ p.boards.map Prod.fst := (List.mem_filter.mp hkv1).1
    obtain ⟨kv0, hkv0, hfst⟩ := List.mem_map.mp hkp
    have hrootp : kv0.1 ≠ p.root_board_id := by
      rw [hfst]
      exact hroot
    obtain ⟨bk, hbk, m, hm, hlink⟩ := hreach kv0 hkv0 hrootp
    have hlbk : lookupA p.boards bk.1 = some bk.2 := mem_eq_lookupA _ _ hkeys hbk
    by_cases hbkin : bk.1 ∈ SubT.bids t
    · exfalso
      have hlinkmem : kv0.1 ∈ ideaChildren bk.2.items :=
        List.mem_filterMap.mpr ⟨m, hm, hlink⟩
      have hcl := Fits_closed t p hfits bk.1 hbkin bk.2 hlbk kv0.1 hlinkmem
      rw [hfst] at hcl
      exact hnotb hcl
    · by_cases hbkcur : bk.1 = cur
      · have hbk2 : bk.2 = b := by
          rw [hbkcur] at hlbk
          have h2 := hb.symm.trans hlbk
          injection h2 with h2
          exact h2.symm
        by_cases hmnid : m.1 = nid
        · exfalso
          have hmv : m.2 = n := by
            have h2 := mem_eq_lookupA b.items m hitems (hbk2 ▸ hm)
            rw [hmnid] at h2
            have h3 := hn.symm.trans h2
            injection h3 with h3
            exact h3.symm
          rw [hmv, hil] at hlink
          injection hlink with hlink
          rw [← hfst] at hnotb
          rw [← hlink] at hnotb
          exact hnotb (bid_mem_bids t)
        · refine ⟨(cur, boardDropNote b nid), ?_, m, ?_, ?_⟩
          · apply lookupA_mem
            rw [withBoards_boards, lookupA_updA_self, hlup]
            rfl
          · rw [boardDropNote_items]
            exact mem_eraseA_of_ne b.items nid m (hbk2 ▸ hm) hmnid
          · rw [hlink, hfst]
      · refine ⟨(bk.1, bk.2), ?_, m, hm, ?_⟩
        · apply lookupA_mem
          rw [withBoards_boards, lookupA_updA_ne _ _ _ _ hbkcur, lookupA_updA_ne _ _ _ _ hbkcur,
            lookupA_removeKeys_not_mem _ _ _ hbkin, hlbk]
        · rw [hlink, hfst]

/-- C3 witness: cascading delete of `i1` in the concrete three-board
project removes boards `cb1` and `cb2` (D = 2) and notes `t1`, `i2` and
`i1` itself (N = 2). -/
theorem claim_C3_witness :
    ∃ q, delete_note 3 pC3 "root" "i1" true = some q
      ∧ (∀ b2 ∈ SubT.bids tC3, lookupA q.boards b2 = none)
      ∧ q.boards.length + (SubT.bids tC3).length = pC3.boards.length
      ∧ (∃ b1, lookupA q.boards "root" = some b1 ∧ lookupA b1.items "i1" = none
           ∧ b1.items_order = rootBoardC3.items_order.erase "i1")
      ∧ totalNotes q + notesOfBids pC3 (SubT.bids tC3) + 1 = totalNotes pC3
      ∧ ReachInv q :=
  claim_C3 3 pC3 "root" "i1" rootBoardC3 noteI1 tC3
    (by decide) (by decide) rfl rfl rfl rfl
    ⟨boardCb1, rfl, rfl, ⟨⟨boardCb2, rfl, rfl, trivial⟩, trivial⟩⟩
    (by simp [tC3, SubT.bids, bidsListT])
    (by simp [tC3, SubT.bids, bidsListT])
    (by decide) (by decide)
    (by simp only [ReachInv]; decide)
    (by simp [tC3, SubT.size, sizeListT])

-- ------------------------------------------------------------------
-- Step equations for the collect / paste recursions
-- ------------------------------------------------------------------

theorem collectSubtree_zero (p : Project) (n : Note) :
    collectSubtree 0 p n = none := by
  rw [collectSubtree]

theorem collectSubtree_succ (f : Nat) (p : Project) (n : Note) :
    collectSubtree (f + 1) p n
      = match ideaLink n with
        | none => some (.mk (snapOfNote n) [])
        | some cb =>
          match lookupA p.boards cb with
          | none => none
          | some b =>
            match collectChildren f p b b.items_order with
            | none => none
            | some cs => some (.mk (snapOfNote n) cs) := by
  rw [collectSubtree]

theorem collectChildren_nil (f : Nat) (p : Project) (b : Board) :
    collectChildren f p b [] = some [] := by
  rw [collectChildren]

theorem collectChildren_cons_none (f : Nat) (p : Project) (b : Board)
    (nid : String) (rest : List String) (h : lookupA b.items nid = none) :
    collectChildren f p b (nid :: rest) = none := by
  conv_lhs => rw [collectChildren]
  simp [h]

theorem collectChildren_cons_some (f : Nat) (p : Project) (b : Board)
    (nid : String) (rest : List String) (n : Note) (h : lookupA b.items nid = some n) :
    collectChildren f p b (nid :: rest)
      = match collectSubtree f p n with
        | none => none
        | some s =>
          match collectChildren f p b rest with
          | none => none
          | some cs => some (s :: cs) := by
  conv_lhs => rw [collectChildren]
  simp [h]

theorem pasteList_nil (bid : String) (p : Project) (c : Nat) (store : List String) :
    pasteList [] bid p c store = some (p, c, store) := by
  rw [pasteList]

theorem pasteList_cons (ch : Snapshot) (rest : List Snapshot) (bid : String)
    (p : Project) (c : Nat) (store : List String) :
    pasteList (ch :: rest) bid p c store
      = match pasteSubtree ch bid none p c store with
        | none => none
        | some r => pasteList rest bid r.1 r.2.1 r.2.2 := by
  conv_lhs => rw [pasteList]

theorem pasteSubtree_noBoard (sn : SnapNote) (cs : List Snapshot) (bid : String)
    (pos : Option (ℚ × ℚ)) (p : Project) (c : Nat) (store : List String)
    (h : lookupA p.boards bid = none) :
    pasteSubtree (.mk sn cs) bid pos p c store = none := by
  conv_lhs => rw [pasteSubtree]
  simp [h]

theorem pasteSubtree_some (sn : SnapNote) (cs : List Snapshot) (bid : String)
    (pos : Option (ℚ × ℚ)) (p : Project) (c : Nat) (store : List String) (b0 : Board)
    (h : lookupA p.boards bid = some b0) :
    pasteSubtree (.mk sn cs) bid pos p c store
      = if sn.type = "idea" ∧ cs.isEmpty = false then
          pasteList cs (genId (afterAssetsC sn c store)) (pasteP3 sn bid pos p c store)
            (afterAssetsC sn c store + 1) (afterAssetsS sn c store)
        else some (pasteP1 sn bid pos p c store, afterAssetsC sn c store, afterAssetsS sn c store) := by
  conv_lhs => rw [pasteSubtree]
  simp [h]

-- ------------------------------------------------------------------
-- C9: dangling order ids — refresh prunes, subtree capture raises
-- ------------------------------------------------------------------

theorem collectChildren_dangling (f : Nat) (p : Project) (b : Board)
    (l : List String) (h : ∃ g ∈ l, lookupA b.items g = none) :
    collectChildren f p b l = none := by
  induction l with
  | nil => obtain ⟨g, hg, _⟩ := h; cases hg
  | cons nid rest ih =>
    obtain ⟨g, hg, hnone⟩ := h
    rcases List.mem_cons.mp hg with hgn | hgr
    · exact collectChildren_cons_none f p b nid rest (hgn ▸ hnone)
    · cases h2 : lookupA b.items nid with
      | none => exact collectChildren_cons_none f p b nid rest h2
      | some n =>
        rw [collectChildren_cons_some f p b nid rest n h2]
        cases hcs : collectSubtree f p n with
        | none => rfl
        | some s => rw [ih ⟨g, hgr, hnone⟩]

theorem collect_dangling (fuel : Nat) (p : Project) (n : Note) (cb : String)
    (bd : Board) (h1 : ideaLink n = some cb) (h2 : lookupA p.boards cb = some bd)
    (h3 : ∃ g ∈ bd.items_order, lookupA bd.items g = none) :
    collectSubtree fuel p n = none := by
  cases fuel with
  | zero => exact collectSubtree_zero p n
  | succ f =>
    rw [collectSubtree_succ]
    simp only [h1, h2, collectChildren_dangling f p bd bd.items_order h3]

/-- C9, counterexample: on the concrete project whose board `cb` holds
the dangling order id `"ghost"`, subtree capture of the idea note `i9`
(which owns `cb`) raises a `KeyError` (`b.items[nid]`) instead of
pruning — refuting the claim that every board-iterating operation,
including subtree capture for copy, completes without a fatal error. -/
theorem claim_C9_counterexample : collectSubtree 3 pC9 noteI9 = none :=
  collect_dangling 3 pC9 noteI9 "cb" boardCb9 (by decide) (by decide)
    ⟨"ghost", by decide, by decide⟩

/-- C9, amended: `refresh_board` does prune lazily — it keeps the items
map intact and removes exactly the order ids with no items entry — but
`_collect_subtree` is not lenient: whenever the captured idea note's
child board has any dangling order id, the capture raises `KeyError`
(`none`), for every recursion budget. -/
theorem claim_C9 (b : Board) (fuel : Nat) (p : Project) (n : Note) (cb : String)
    (bd : Board) (h1 : ideaLink n = some cb) (h2 : lookupA p.boards cb = some bd)
    (h3 : ∃ g ∈ bd.items_order, lookupA bd.items g = none) :
    ((refreshBoard b).items = b.items
      ∧ (refreshBoard b).items_order
          = b.items_order.filter (fun nid => (lookupA b.items nid).isSome))
    ∧ collectSubtree fuel p n = none := by
  refine ⟨⟨?_, ?_⟩, collect_dangling fuel p n cb bd h1 h2 h3⟩
  · unfold refreshBoard
    split <;> rfl
  · unfold refreshBoard
    split
    · rename_i heq
      rw [heq]
      rfl
    · rfl

/-- C9 witness: the amended statement at the concrete dangling-id
project (board `cb` holds order id `"ghost"` and an empty items map). -/
theorem claim_C9_witness :
    ((refreshBoard boardCb9).items = boardCb9.items
      ∧ (refreshBoard boardCb9).items_order
          = boardCb9.items_order.filter (fun nid => (lookupA boardCb9.items nid).isSome))
    ∧ collectSubtree 2 pC9 noteI9 = none :=
  claim_C9 boardCb9 2 pC9 noteI9 "cb" boardCb9 (by decide) (by decide)
    ⟨"ghost", by decide, by decide⟩

-- ------------------------------------------------------------------
-- C10: an empty child board is lost across copy/paste
-- ------------------------------------------------------------------

/-- C10: capturing an idea note whose existing child board holds no
notes yields a snapshot with an empty children list, and pasting that
snapshot inserts an idea note with `child_board_id = None` and creates
no board: the empty child board is not recreated. -/
theorem claim_C10 (fuel : Nat) (p : Project) (n : Note) (cb : String) (cbd : Board)
    (dest : String) (db : Board) (c : Nat) (store : List String) (pos : Option (ℚ × ℚ))
    (hfuel : 0 < fuel)
    (hlink : ideaLink n = some cb)
    (hcbd : lookupA p.boards cb = some cbd)
    (hempty : cbd.items_order = [])
    (hdest : lookupA p.boards dest = some db)
    (hfresh : lookupA db.items (genId c) = none) :
    ∃ snap, collectSubtree fuel p n = some snap ∧ Snapshot.children snap = []
      ∧ ∃ p1, pasteSubtree snap dest pos p c store
            = some (p1, afterAssetsC (snapOfNote n) c store, afterAssetsS (snapOfNote n) c store)
        ∧ (∃ b1, lookupA p1.boards dest = some b1
            ∧ lookupA b1.items (genId c) = some (pastedNote (snapOfNote n) pos c store)
            ∧ (pastedNote (snapOfNote n) pos c store).child_board_id = none)
        ∧ p1.boards.map Prod.fst = p.boards.map Prod.fst := by
  obtain ⟨f, rfl⟩ : ∃ f, fuel = f + 1 := ⟨fuel - 1, by omega⟩
  refine ⟨.mk (snapOfNote n) [], ?_, rfl, pasteP1 (snapOfNote n) dest pos p c store, ?_, ⟨?_, ?_, ?_⟩, ?_⟩
  · rw [collectSubtree_succ]
    simp only [hlink, hcbd, hempty, collectChildren_nil]
  · rw [pasteSubtree_some (snapOfNote n) [] dest pos p c store db hdest, if_neg]
    simp
  · exact boardAddNote db (genId c) (pastedNote (snapOfNote n) pos c store)
  · simp only [pasteP1, withBoards_boards, lookupA_updA_self, hdest, Option.map_some']
  · constructor
    · simp only [boardAddNote]
      rw [lookupA_append_none _ _ _ hfresh]
      simp [lookupA]
    · rfl
  · simp only [pasteP1, withBoards_boards, keys_updA]

/-- C10 witness: the concrete idea note `i10` with the existing empty
board `cb0`: its snapshot has no children and its paste at the root
board yields an unlinked idea note and no new board key. -/
theorem claim_C10_witness :
    ∃ snap, collectSubtree 1 pC10 noteI10 = some snap ∧ Snapshot.children snap = []
      ∧ ∃ p1, pasteSubtree snap "root" none pC10 0 []
            = some (p1, afterAssetsC (snapOfNote noteI10) 0 [], afterAssetsS (snapOfNote noteI10) 0 [])
        ∧ (∃ b1, lookupA p1.boards "root" = some b1
            ∧ lookupA b1.items (genId 0) = some (pastedNote (snapOfNote noteI10) none 0 [])
            ∧ (pastedNote (snapOfNote noteI10) none 0 []).child_board_id = none)
        ∧ p1.boards.map Prod.fst = pC10.boards.map Prod.fst :=
  claim_C10 1 pC10 noteI10 "cb0" boardCb10 "root" rootBoardC10 0 [] none
    (by decide) (by decide) (by decide) (by decide) (by decide) (by decide)

-- ------------------------------------------------------------------
-- Identifier-supply and file-name lemmas (C4 groundwork)
-- ------------------------------------------------------------------

theorem genId_data (k : Nat) : (genId k).data = List.replicate (k + 1) 'x' := rfl

theorem genId_append_data (k : Nat) (e : String) :
    (genId k ++ e).data = List.replicate (k + 1) 'x' ++ e.data := by
  obtain ⟨d⟩ := e
  rfl

theorem genId_head (k : Nat) : (genId k).data.head? = some 'x' := by
  rw [genId_data, List.replicate_succ]
  rfl

theorem genId_append_head (k : Nat) (e : String) :
    (genId k ++ e).data.head? = some 'x' := by
  rw [genId_append_data, List.replicate_succ]
  rfl

theorem genId_ne_empty (k : Nat) : genId k ≠ "" := by
  intro h
  have h2 := congrArg String.data h
  rw [genId_data, List.replicate_succ] at h2
  cases h2

theorem genId_inj (j k : Nat) (h : genId j = genId k) : j = k := by
  have h2 := congrArg String.data h
  rw [genId_data, genId_data] at h2
  have h3 := congrArg List.length h2
  simp only [List.length_replicate] at h3
  omega

theorem genId_ne_of_head (k : Nat) (s : String) (h : s.data.head? ≠ some 'x') :
    genId k ≠ s :=
  fun he => h (he ▸ genId_head k)

theorem genId_append_ne_of_head (k : Nat) (e s : String) (h : s.data.head? ≠ some 'x') :
    genId k ++ e ≠ s :=
  fun he => h (he ▸ genId_append_head k e)

theorem genId_append_ne_of_lt (j k : Nat) (e1 e2 : String) (hjk : j < k)
    (he1 : e1 = "" ∨ e1.data.head? = some '.') :
    genId k ++ e2 ≠ genId j ++ e1 := by
  intro h
  have h2 := congrArg String.data h
  rw [genId_append_data, genId_append_data] at h2
  have hsplit : List.replicate (k + 1) 'x'
      = List.replicate (j + 1) 'x' ++ List.replicate (k - j) 'x' := by
    rw [← List.replicate_add]
    congr 1
    omega
  rw [hsplit, List.append_assoc] at h2
  have h3 : List.replicate (k - j) 'x' ++ e2.data = e1.data :=
    List.append_cancel_left h2
  obtain ⟨m, hm⟩ : ∃ m, k - j = m + 1 := ⟨k - j - 1, by omega⟩
  rw [hm, List.replicate_succ] at h3
  rcases he1 with he | he
  · rw [he] at h3
    cases h3
  · rw [← h3, List.cons_append, List.head?_cons] at he
    exact absurd (Option.some.inj he) (by decide)

theorem afterLastDot_head (l : List Char) (r : List Char)
    (h : afterLastDot l = some r) : r.head? = some '.' := by
  induction l generalizing r with
  | nil => cases h
  | cons ch tl ih =>
    rw [afterLastDot] at h
    cases hi : afterLastDot tl with
    | some r2 =>
      rw [hi] at h
      exact ih r (Option.some.inj h ▸ hi)
    | none =>
      rw [hi] at h
      by_cases hch : ch = '.'
      · rw [if_pos hch] at h
        rw [← Option.some.inj h, List.head?_cons, hch]
      · rw [if_neg hch] at h
        cases h

theorem pySuffix_shape (s : String) :
    pySuffix s = "" ∨ (pySuffix s).data.head? = some '.' := by
  obtain ⟨d⟩ := s
  cases d with
  | nil => exact Or.inl rfl
  | cons c0 rest =>
    cases ha : afterLastDot rest with
    | none =>
      left
      simp [pySuffix, ha]
    | some r =>
      cases r with
      | nil =>
        left
        simp [pySuffix, ha]
      | cons d0 tl =>
        by_cases ht : tl = []
        · left
          simp [pySuffix, ha, ht]
        · right
          simp only [pySuffix, ha, if_neg ht]
          show (d0 :: tl).head? = some '.'
          exact afterLastDot_head rest (d0 :: tl) ha

theorem lowerStr_empty : lowerStr "" = "" := rfl

theorem lowerStr_head_dot (s : String) (h : s.data.head? = some '.') :
    (lowerStr s).data.head? = some '.' := by
  rw [lowerStr]
  show (s.data.map Char.toLower).head? = some '.'
  rw [List.head?_map, h]
  rfl

theorem extLower_shape (s : String) :
    lowerStr (pySuffix s) = "" ∨ (lowerStr (pySuffix s)).data.head? = some '.' := by
  rcases pySuffix_shape s with h | h
  · rw [h]
    exact Or.inl rfl
  · exact Or.inr (lowerStr_head_dot (pySuffix s) h)

-- ------------------------------------------------------------------
-- Asset-copy specification
-- ------------------------------------------------------------------

theorem assetStep_spec (r : String) (c : Nat) (store : List String)
    (hfs : FreshStore store c) :
    ∃ a c2 d, assetStep r c store = (a, c2, store ++ d)
      ∧ c ≤ c2 ∧ c2 ≤ c + 1
      ∧ (a = "" ∨ (a ∉ store ∧ a ∈ store ++ d))
      ∧ StoreDelta c c2 d := by
  unfold assetStep
  by_cases h : r ≠ "" ∧ r ∈ store
  · rw [if_pos h]
    unfold copy_into_assets
    rw [if_neg h.1, if_pos h.2]
    refine ⟨genId c ++ lowerStr (pySuffix r), c + 1,
      [genId c ++ lowerStr (pySuffix r)], rfl, by omega, by omega, ?_, ?_⟩
    · refine Or.inr ⟨hfs c le_rfl (lowerStr (pySuffix r)), ?_⟩
      exact List.mem_append_right _ (List.mem_singleton.mpr rfl)
    · intro x hx
      rw [List.mem_singleton] at hx
      subst hx
      exact ⟨c, lowerStr (pySuffix r), le_rfl, by omega, rfl, extLower_shape r⟩
  · rw [if_neg h]
    refine ⟨"", c, [], by simp, le_rfl, by omega, Or.inl rfl, ?_⟩
    intro x hx
    cases hx

theorem StoreDelta_widen (c c2 c3 c4 : Nat) (d : List String)
    (h : StoreDelta c2 c3 d) (h1 : c ≤ c2) (h2 : c3 ≤ c4) :
    StoreDelta c c4 d := by
  intro x hx
  obtain ⟨j, e, hj1, hj2, hx2, hsh⟩ := h x hx
  exact ⟨j, e, by omega, by omega, hx2, hsh⟩

theorem StoreDelta_append (c1 c2 c3 : Nat) (d1 d2 : List String)
    (h1 : StoreDelta c1 c2 d1) (h2 : StoreDelta c2 c3 d2)
    (hc1 : c1 ≤ c2) (hc2 : c2 ≤ c3) :
    StoreDelta c1 c3 (d1 ++ d2) := by
  intro x hx
  rcases List.mem_append.mp hx with hm | hm
  · exact StoreDelta_widen c1 c1 c2 c3 d1 h1 le_rfl hc2 x hm
  · exact StoreDelta_widen c1 c2 c3 c3 d2 h2 hc1 le_rfl x hm

theorem FreshStore_mono (store : List String) (c c2 : Nat)
    (h : FreshStore store c) (hc : c ≤ c2) : FreshStore store c2 :=
  fun k hk => h k (le_trans hc hk)

theorem FreshStore_step (store st2 : List String) (c c2 : Nat) (d : List String)
    (hfs : FreshStore store c) (hst : st2 = store ++ d) (hd : StoreDelta c c2 d)
    (hc : c ≤ c2) : FreshStore st2 c2 := by
  intro k hk e hmem
  rw [hst] at hmem
  rcases List.mem_append.mp hmem with hm | hm
  · exact hfs k (le_trans hc hk) e hm
  · obtain ⟨j, e0, hj1, hj2, hx, hsh⟩ := hd _ hm
    exact genId_append_ne_of_lt j k e0 e (by omega) hsh (hx ▸ rfl)

theorem assets_spec (sn : SnapNote) (c : Nat) (store : List String)
    (hfs : FreshStore store c) :
    ∃ d, afterAssetsS sn c store = store ++ d
      ∧ StoreDelta c (afterAssetsC sn c store) d
      ∧ c < afterAssetsC sn c store
      ∧ afterAssetsC sn c store ≤ c + 3
      ∧ AssetNew store (afterAssetsS sn c store) (audioRes sn c store).1
      ∧ AssetNew store (afterAssetsS sn c store) (imageRes sn c store).1 := by
  obtain ⟨a1, ca, d1, he1, hca1, hca2, hnew1, hsh1⟩ :=
    assetStep_spec sn.payload.audio_asset (c + 1) store
      (FreshStore_mono store c (c + 1) hfs (by omega))
  have haud : audioRes sn c store = (a1, ca, store ++ d1) := by
    rw [audioRes, he1]
  have hfs2 : FreshStore (store ++ d1) ca :=
    FreshStore_step store (store ++ d1) (c + 1) ca d1
      (FreshStore_mono store c (c + 1) hfs (by omega)) rfl hsh1 hca1
  obtain ⟨a2, ci, d2, he2, hci1, hci2, hnew2, hsh2⟩ :=
    assetStep_spec sn.payload.image_asset ca (store ++ d1) hfs2
  have himg : imageRes sn c store = (a2, ci, (store ++ d1) ++ d2) := by
    rw [imageRes, haud]
    exact he2
  have hC : afterAssetsC sn c store = ci := by rw [afterAssetsC, himg]
  have hS : afterAssetsS sn c store = store ++ (d1 ++ d2) := by
    rw [afterAssetsS, himg, List.append_assoc]
  refine ⟨d1 ++ d2, hS, ?_, by omega, by omega, ?_, ?_⟩
  · rw [hC]
    refine StoreDelta_append c ca ci d1 d2 ?_ ?_ (by omega) (by omega)
    · exact StoreDelta_widen c (c + 1) ca ca d1 hsh1 (by omega) le_rfl
    · exact hsh2
  · rw [haud, hS]
    rcases hnew1 with h | ⟨hn1, hn2⟩
    · exact Or.inl h
    · refine Or.inr ⟨hn1, ?_⟩
      rw [← List.append_assoc]
      exact List.mem_append_left _ hn2
  · rw [himg, hS]
    rcases hnew2 with h | ⟨hn1, hn2⟩
    · exact Or.inl h
    · refine Or.inr ⟨fun hmem => hn1 (List.mem_append_left _ hmem), ?_⟩
      rw [← List.append_assoc]
      exact hn2

-- ------------------------------------------------------------------
-- Freshness propagation and provenance composition
-- ------------------------------------------------------------------

theorem NewKeys_widen (c c2 c3 c4 : Nat) (ks : List String)
    (h : NewKeys c2 c3 ks) (h1 : c ≤ c2) (h2 : c3 ≤ c4) : NewKeys c c4 ks := by
  intro x hx
  obtain ⟨j, hj1, hj2, hx2⟩ := h x hx
  exact ⟨j, by omega, by omega, hx2⟩

theorem NewKeys_append (c1 c2 c3 : Nat) (nb1 nb2 : List String)
    (h1 : NewKeys c1 c2 nb1) (h2 : NewKeys c2 c3 nb2)
    (hc1 : c1 ≤ c2) (hc2 : c2 ≤ c3) : NewKeys c1 c3 (nb1 ++ nb2) := by
  intro x hx
  rcases List.mem_append.mp hx with hm | hm
  · exact NewKeys_widen c1 c1 c2 c3 nb1 h1 le_rfl hc2 x hm
  · exact NewKeys_widen c1 c2 c3 c3 nb2 h2 hc1 le_rfl x hm

theorem FreshBoards_mono (p : Project) (c c2 : Nat)
    (h : FreshBoards p c) (hc : c ≤ c2) : FreshBoards p c2 :=
  fun k hk => h k (le_trans hc hk)

theorem FreshNotes_mono (p : Project) (c c2 : Nat)
    (h : FreshNotes p c) (hc : c ≤ c2) : FreshNotes p c2 :=
  fun k hk => h k (le_trans hc hk)

theorem FreshBoards_step (p p2 : Project) (c c2 : Nat) (nb : List String)
    (hfb : FreshBoards p c)
    (hk : p2.boards.map Prod.fst = p.boards.map Prod.fst ++ nb)
    (hnb : NewKeys c c2 nb) (hc : c ≤ c2) : FreshBoards p2 c2 := by
  intro k hk2 hmem
  rw [hk] at hmem
  rcases List.mem_append.mp hmem with hm | hm
  · exact hfb k (le_trans hc hk2) hm
  · obtain ⟨j, hj1, hj2, hx⟩ := hnb _ hm
    have := genId_inj j k hx.symm
    omega

theorem FreshNotes_step (p p2 : Project) (c c2 : Nat) (store st2 : List String)
    (hfn : FreshNotes p c) (hprov : Prov p p2 c c2 store st2) (hc : c ≤ c2) :
    FreshNotes p2 c2 := by
  intro k hk bk hbk hmem
  obtain ⟨m, hm, hfst⟩ := List.mem_map.mp hmem
  rcases hprov bk hbk m hm with ⟨bk0, hbk0, hm0⟩ | ⟨⟨j, hj1, hj2, hmj⟩, _, _⟩
  · exact hfn k (le_trans hc hk) bk0 hbk0 (hfst ▸ List.mem_map_of_mem Prod.fst hm0)
  · have := genId_inj j k (by rw [← hmj, hfst])
    omega

theorem Prov_init (p : Project) (c c2 : Nat) (store st2 : List String) :
    Prov p p c c2 store st2 :=
  fun bk hbk m hm => Or.inl ⟨bk, hbk, hm⟩

theorem AssetNew_shift (s1 s2 s3 : List String) (d : List String) (a : String)
    (hs2 : s2 = s1 ++ d) (h : AssetNew s2 s3 a) : AssetNew s1 s3 a := by
  rcases h with h | ⟨h1, h2⟩
  · exact Or.inl h
  · exact Or.inr ⟨fun hm => h1 (hs2 ▸ List.mem_append_left d hm), h2⟩

theorem AssetNew_grow (s1 s2 s3 : List String) (d : List String) (a : String)
    (hs3 : s3 = s2 ++ d) (h : AssetNew s1 s2 a) : AssetNew s1 s3 a := by
  rcases h with h | ⟨h1, h2⟩
  · exact Or.inl h
  · exact Or.inr ⟨h1, hs3 ▸ List.mem_append_left d h2⟩

theorem Prov_trans (p1 p2 p3 : Project) (c1 c2 c3 : Nat)
    (s1 s2 s3 : List String) (d12 d23 : List String)
    (h12 : Prov p1 p2 c1 c2 s1 s2) (h23 : Prov p2 p3 c2 c3 s2 s3)
    (hs2 : s2 = s1 ++ d12) (hs3 : s3 = s2 ++ d23)
    (hc1 : c1 ≤ c2) (hc2 : c2 ≤ c3) : Prov p1 p3 c1 c3 s1 s3 := by
  intro bk hbk m hm
  rcases h23 bk hbk m hm with hold | ⟨⟨j, hj1, hj2, hjx⟩, ha, hi⟩
  · obtain ⟨bk0, hbk0, hm0⟩ := hold
    rcases h12 bk0 hbk0 m hm0 with hold1 | ⟨⟨j, hj1, hj2, hjx⟩, ha, hi⟩
    · exact Or.inl hold1
    · exact Or.inr ⟨⟨j, by omega, by omega, hjx⟩,
        AssetNew_grow s1 s2 s3 d23 _ hs3 ha, AssetNew_grow s1 s2 s3 d23 _ hs3 hi⟩
  · exact Or.inr ⟨⟨j, by omega, by omega, hjx⟩,
      AssetNew_shift s1 s2 s3 d12 _ hs2 ha, AssetNew_shift s1 s2 s3 d12 _ hs2 hi⟩

-- ------------------------------------------------------------------
-- Dict helpers for the paste analysis
-- ------------------------------------------------------------------

theorem mem_keys_of_lookupA {α : Type} (l : List (String × α)) (k : String) (v : α)
    (h : lookupA l k = some v) : k ∈ l.map Prod.fst := by
  by_contra hmem
  rw [(lookupA_eq_none_iff l k).mpr hmem] at h
  cases h

theorem lookupA_append_single_ne {α : Type} (l : List (String × α))
    (k cid : String) (v : α) (h : k ≠ cid) :
    lookupA (l ++ [(cid, v)]) k = lookupA l k := by
  cases hl : lookupA l k with
  | some w => exact lookupA_append_some l _ k w hl
  | none =>
    rw [lookupA_append_none l _ k hl, lookupA_cons, if_neg (Ne.symm h)]
    rfl

theorem updA_append_fresh {α : Type} (l : List (String × α)) (k : String)
    (v : α) (f : α → α) (h : k ∉ l.map Prod.fst) :
    updA (l ++ [(k, v)]) k f = l ++ [(k, f v)] := by
  unfold updA
  rw [List.map_append]
  congr 1
  · conv_rhs => rw [← List.map_id l]
    refine List.map_congr_left ?_
    intro kv hkv
    have hne : kv.1 ≠ k := fun he => h (he ▸ List.mem_map_of_mem Prod.fst hkv)
    simp [hne]
  · simp

theorem mem_updA {α : Type} (l : List (String × α)) (key : String) (f : α → α)
    (kv : String × α) (h : kv ∈ updA l key f) :
    ∃ kv0 ∈ l, kv = (if kv0.1 = key then (kv0.1, f kv0.2) else kv0) := by
  simp only [updA] at h
  obtain ⟨kv0, hkv0, heq⟩ := List.mem_map.mp h
  exact ⟨kv0, hkv0, heq.symm⟩

theorem nodup_append_single {α : Type} [DecidableEq α] (l : List α) (a : α)
    (h1 : l.Nodup) (h2 : a ∉ l) : (l ++ [a]).Nodup := by
  simp [List.nodup_append, h1, h2]

theorem boardAddAll_nil (bd : Board) : boardAddAll bd [] = bd := by
  simp [boardAddAll]

theorem boardAddAll_append (bd : Board) (l1 l2 : List (String × Note)) :
    boardAddAll (boardAddAll bd l1) l2 = boardAddAll bd (l1 ++ l2) := by
  simp [boardAddAll, List.append_assoc, List.map_append]

theorem boardAddNote_eq_addAll (bd : Board) (k : String) (n : Note) :
    boardAddNote bd k n = boardAddAll bd [(k, n)] := rfl

theorem boardAddAll_items (bd : Board) (l : List (String × Note)) :
    (boardAddAll bd l).items = bd.items ++ l := rfl

theorem boardAddAll_order (bd : Board) (l : List (String × Note)) :
    (boardAddAll bd l).items_order = bd.items_order ++ l.map Prod.fst := rfl

-- ------------------------------------------------------------------
-- Paste specification: leaf case (no children pasted)
-- ------------------------------------------------------------------

theorem paste_leaf (sn : SnapNote) (bid : String) (pos : Option (ℚ × ℚ))
    (p : Project) (c : Nat) (store : List String) (db : Board)
    (hdest : lookupA p.boards bid = some db)
    (hko : KeysOK p) (hfb : FreshBoards p c) (hfn : FreshNotes p c)
    (hfs : FreshStore store c) :
    PasteNodeOut (.mk sn []) bid pos p c store db := by
  obtain ⟨d, hS, hdel, hlt, hle, hA, hI⟩ := assets_spec sn c store hfs
  refine ⟨pasteP1 sn bid pos p c store, afterAssetsC sn c store,
    afterAssetsS sn c store, pastedNote sn pos c store,
    ?_, hlt, ?_, ?_, rfl, ?_, ?_, ?_, ⟨d, hS, hdel⟩, ?_⟩
  · rw [pasteSubtree_some sn [] bid pos p c store db hdest, if_neg (by simp)]
  · intro bk hbk hfr
    simp only [pasteP1, withBoards_boards]
    exact lookupA_updA_ne p.boards bid bk _ hbk
  · simp only [pasteP1, withBoards_boards, lookupA_updA_self, hdest, Option.map_some']
  · intro q fuel hq hsz
    have hlink : ideaLink (pastedNote sn pos c store) = none := by
      simp [ideaLink, truthyChild, truthyStr, pastedNote]
    obtain ⟨f, rfl⟩ : ∃ f, fuel = f + 1 := ⟨fuel - 1, by omega⟩
    refine ⟨.mk (snapOfNote (pastedNote sn pos c store)) [], ?_, ?_⟩
    · rw [collectSubtree_succ]
      simp only [hlink]
    · simp only [snapShape, snapShapeList]
      rfl
  · refine ⟨[], ?_, ?_⟩
    · simp only [pasteP1, withBoards_boards, keys_updA, List.append_nil]
    · intro x hx
      cases hx
  · intro bk hbk m hm
    simp only [pasteP1, withBoards_boards] at hbk
    obtain ⟨bk0, hbk0, heq⟩ := mem_updA p.boards bid _ bk hbk
    by_cases hb : bk0.1 = bid
    · rw [if_pos hb] at heq
      subst heq
      simp only [boardAddNote] at hm
      rcases List.mem_append.mp hm with hm0 | hm0
      · exact Or.inl ⟨bk0, hbk0, hm0⟩
      · rw [List.mem_singleton] at hm0
        subst hm0
        exact Or.inr ⟨⟨c, le_rfl, hlt, rfl⟩, hA, hI⟩
    · rw [if_neg hb] at heq
      rw [heq] at hm
      exact Or.inl ⟨bk0, hbk0, hm⟩
  · constructor
    · simp only [pasteP1, withBoards_boards, keys_updA]
      exact hko.1
    · intro bk hbk
      simp only [pasteP1, withBoards_boards] at hbk
      obtain ⟨bk0, hbk0, heq⟩ := mem_updA p.boards bid _ bk hbk
      by_cases hb : bk0.1 = bid
      · rw [if_pos hb] at heq
        subst heq
        simp only [boardAddNote, List.map_append, List.map_cons, List.map_nil]
        exact nodup_append_single _ _ (hko.2 bk0 hbk0) (hfn c le_rfl bk0 hbk0)
      · rw [if_neg hb] at heq
        rw [heq]
        exact hko.2 bk0 hbk0

-- ------------------------------------------------------------------
-- Paste specification: children list
-- ------------------------------------------------------------------

theorem pasteList_nil_spec (cb : String) (p : Project) (c : Nat)
    (store : List String) (cbB : Board)
    (hcb : lookupA p.boards cb = some cbB) (hko : KeysOK p) :
    PasteListOut [] cb p c store cbB := by
  refine ⟨p, c, store, [], pasteList_nil cb p c store, le_rfl, ?_, ?_, ?_, ?_, ?_, ?_,
    Prov_init p c c store store, ⟨[], (List.append_nil store).symm, ?_⟩, hko⟩
  · intro bk _ _
    rfl
  · rw [boardAddAll_nil]
    exact hcb
  · intro kv hkv
    cases hkv
  · simp
  · intro q bq fuel hq hbq hsz
    refine ⟨[], ?_, rfl⟩
    show collectChildren fuel q bq [] = some []
    exact collectChildren_nil fuel q bq
  · refine ⟨[], ?_, ?_⟩
    · rw [List.append_nil]
    · intro x hx
      cases hx
  · intro x hx
    cases hx

theorem pasteList_cons_step (ch : Snapshot) (rest : List Snapshot) (cb : String)
    (p : Project) (c : Nat) (store : List String) (cbB : Board)
    (hcb : lookupA p.boards cb = some cbB)
    (hko : KeysOK p) (hfb : FreshBoards p c) (hfn : FreshNotes p c)
    (hfs : FreshStore store c)
    (hIH1 : PasteNodeOut ch cb none p c store cbB)
    (hIH2 : ∀ (p3 : Project) (c3 : Nat) (st3 : List String) (cbB3 : Board),
        lookupA p3.boards cb = some cbB3 → KeysOK p3 → FreshBoards p3 c3 →
        FreshNotes p3 c3 → FreshStore st3 c3 → PasteListOut rest cb p3 c3 st3 cbB3) :
    PasteListOut (ch :: rest) cb p c store cbB := by
  obtain ⟨p1, c1, st1, n1, hEQ1, hlt1, hloc1, hdest1, hid1, hcol1, ⟨nb1, hk1, hnb1⟩,
    hprov1, ⟨d1, hst1, hsd1⟩, hko1⟩ := hIH1
  have hfb1 : FreshBoards p1 c1 := FreshBoards_step p p1 c c1 nb1 hfb hk1 hnb1 (le_of_lt hlt1)
  have hfn1 : FreshNotes p1 c1 := FreshNotes_step p p1 c c1 store st1 hfn hprov1 (le_of_lt hlt1)
  have hfs1 : FreshStore st1 c1 := FreshStore_step store st1 c c1 d1 hfs hst1 hsd1 (le_of_lt hlt1)
  obtain ⟨p2, c2, st2, NEWr, hEQ2, hle2, hloc2, hdest2, hmem2, hnd2, hCL2,
    ⟨nb2, hk2, hnb2⟩, hprov2, ⟨d2, hst2, hsd2⟩, hko2⟩ :=
    hIH2 p1 c1 st1 (boardAddNote cbB (genId c) n1) hdest1 hko1 hfb1 hfn1 hfs1
  have hcbfrom : cb ∈ p.boards.map Prod.fst := mem_keys_of_lookupA p.boards cb cbB hcb
  have hcbgen : ∀ j, c ≤ j → cb ≠ genId j := fun j hj he => hfb j hj (he ▸ hcbfrom)
  refine ⟨p2, c2, st2, (genId c, n1) :: NEWr, ?_, by omega, ?_, ?_, ?_, ?_, ?_, ?_, ?_, ?_, hko2⟩
  · rw [pasteList_cons]
    simp only [hEQ1]
    exact hEQ2
  · intro bk hbk hfr
    rw [hloc2 bk hbk (fun j hj1 hj2 => hfr j (by omega) hj2),
      hloc1 bk hbk (fun j hj1 hj2 => hfr j hj1 (by omega))]
  · rw [hdest2, boardAddNote_eq_addAll, boardAddAll_append]
    rfl
  · intro kv hkv
    rcases List.mem_cons.mp hkv with h | h
    · subst h
      exact ⟨c, le_rfl, by omega, rfl⟩
    · obtain ⟨j, hj1, hj2, hx⟩ := hmem2 kv h
      exact ⟨j, by omega, hj2, hx⟩
  · simp only [List.map_cons]
    refine List.nodup_cons.mpr ⟨?_, hnd2⟩
    intro hmem
    obtain ⟨kv, hkv, hfst⟩ := List.mem_map.mp hmem
    obtain ⟨j, hj1, hj2, hx⟩ := hmem2 kv hkv
    have := genId_inj j c (by rw [← hx, hfst])
    omega
  · intro q bq fuel hq hbq hsz
    have hExt1 : ∀ j, c ≤ j → j < c1 →
        lookupA q.boards (genId j) = lookupA p1.boards (genId j) := by
      intro j hj1 hj2
      rw [hq j hj1 (by omega)]
      refine hloc2 (genId j) (Ne.symm (hcbgen j hj1)) ?_
      intro j2 h1 h2 he
      have := genId_inj j j2 he
      omega
    have hszch : snapSize ch < fuel := by
      simp only [snapSizeList] at hsz
      omega
    obtain ⟨sh, hcolh, hshh⟩ := hcol1 q fuel hExt1 hszch
    have hszr : snapSizeList rest < fuel := by
      simp only [snapSizeList] at hsz
      omega
    obtain ⟨ssr, hcolr, hshr⟩ := hCL2 q bq fuel (fun j hj1 hj2 => hq j (by omega) hj2)
      (fun kv hkv => hbq kv (List.mem_cons_of_mem _ hkv)) hszr
    refine ⟨sh :: ssr, ?_, ?_⟩
    · simp only [List.map_cons]
      rw [collectChildren_cons_some fuel q bq (genId c) (NEWr.map Prod.fst) n1
        (hbq (genId c, n1) (List.mem_cons_self _ _))]
      simp only [hcolh, hcolr]
    · simp only [snapShapeList]
      rw [hshh, hshr]
  · refine ⟨nb1 ++ nb2, ?_, NewKeys_append c c1 c2 nb1 nb2 hnb1 hnb2 (by omega) hle2⟩
    rw [hk2, hk1, List.append_assoc]
  · exact Prov_trans p p1 p2 c c1 c2 store st1 st2 d1 d2 hprov1 hprov2 hst1 hst2 (by omega) hle2
  · refine ⟨d1 ++ d2, ?_, StoreDelta_append c c1 c2 d1 d2 hsd1 hsd2 (by omega) hle2⟩
    rw [hst2, hst1, List.append_assoc]

-- ------------------------------------------------------------------
-- Generic state-step lemmas for the idea-with-children paste case
-- ------------------------------------------------------------------

theorem updA_updA {α : Type} (l : List (String × α)) (k : String) (f g : α → α) :
    updA (updA l k f) k g = updA l k (fun v => g (f v)) := by
  unfold updA
  rw [List.map_map]
  refine List.map_congr_left ?_
  intro kv _
  by_cases h : kv.1 = k
  · simp [Function.comp, h]
  · simp [Function.comp, h]

theorem updA_congr_mem {α : Type} (l : List (String × α)) (k : String) (f g : α → α)
    (h : ∀ kv ∈ l, kv.1 = k → f kv.2 = g kv.2) : updA l k f = updA l k g := by
  unfold updA
  refine List.map_congr_left ?_
  intro kv hkv
  by_cases hk : kv.1 = k
  · simp [hk, h kv hkv hk]
  · simp [hk]

theorem FreshNotes_updA_addNote (p : Project) (bid nid : String) (n : Note) (c2 : Nat)
    (h : FreshNotes p c2) (hnid : ∀ j, c2 ≤ j → nid ≠ genId j) :
    FreshNotes (withBoards p (updA p.boards bid (fun bd => boardAddNote bd nid n))) c2 := by
  intro k hk bk hbk hmem
  rw [withBoards_boards] at hbk
  obtain ⟨bk0, hbk0, heq⟩ := mem_updA _ _ _ _ hbk
  by_cases h0 : bk0.1 = bid
  · rw [if_pos h0] at heq
    subst heq
    simp only [boardAddNote, List.map_append, List.map_cons, List.map_nil] at hmem
    rcases List.mem_append.mp hmem with hm | hm
    · exact h k hk bk0 hbk0 hm
    · rw [List.mem_singleton] at hm
      exact hnid k hk hm.symm
  · rw [if_neg h0] at heq
    rw [heq] at hmem
    exact h k hk bk0 hbk0 hmem

theorem FreshNotes_appendBoard (p : Project) (cid : String) (b : Board) (c2 : Nat)
    (h : FreshNotes p c2) (hb : b.items = []) :
    FreshNotes (withBoards p (p.boards ++ [(cid, b)])) c2 := by
  intro k hk bk hbk hmem
  rw [withBoards_boards] at hbk
  rcases List.mem_append.mp hbk with hm | hm
  · exact h k hk bk hm hmem
  · rw [List.mem_singleton] at hm
    subst hm
    rw [hb] at hmem
    cases hmem

theorem KeysOK_updA_addNote (p : Project) (bid nid : String) (n : Note)
    (hko : KeysOK p) (hfresh : ∀ bk ∈ p.boards, nid ∉ bk.2.items.map Prod.fst) :
    KeysOK (withBoards p (updA p.boards bid (fun bd => boardAddNote bd nid n))) := by
  constructor
  · rw [withBoards_boards, keys_updA]
    exact hko.1
  · intro bk hbk
    rw [withBoards_boards] at hbk
    obtain ⟨bk0, hbk0, heq⟩ := mem_updA _ _ _ _ hbk
    by_cases h0 : bk0.1 = bid
    · rw [if_pos h0] at heq
      subst heq
      simp only [boardAddNote, List.map_append, List.map_cons, List.map_nil]
      exact nodup_append_single _ _ (hko.2 bk0 hbk0) (hfresh bk0 hbk0)
    · rw [if_neg h0] at heq
      rw [heq]
      exact hko.2 bk0 hbk0

theorem KeysOK_appendBoard (p : Project) (cid : String) (b : Board)
    (hko : KeysOK p) (hfresh : cid ∉ p.boards.map Prod.fst)
    (hb : (b.items.map Prod.fst).Nodup) :
    KeysOK (withBoards p (p.boards ++ [(cid, b)])) := by
  constructor
  · rw [withBoards_boards, List.map_append]
    exact nodup_append_single _ _ hko.1 hfresh
  · intro bk hbk
    rw [withBoards_boards] at hbk
    rcases List.mem_append.mp hbk with hm | hm
    · exact hko.2 bk hm
    · rw [List.mem_singleton] at hm
      subst hm
      exact hb

theorem Prov_updA_addNote (p : Project) (bid nid : String) (n : Note) (c c2 : Nat)
    (store st2 : List String) (hnew : ∃ j, c ≤ j ∧ j < c2 ∧ nid = genId j)
    (ha : AssetNew store st2 n.payload.audio_asset)
    (hi : AssetNew store st2 n.payload.image_asset) :
    Prov p (withBoards p (updA p.boards bid (fun bd => boardAddNote bd nid n))) c c2 store st2 := by
  intro bk hbk m hm
  rw [withBoards_boards] at hbk
  obtain ⟨bk0, hbk0, heq⟩ := mem_updA _ _ _ _ hbk
  by_cases h0 : bk0.1 = bid
  · rw [if_pos h0] at heq
    subst heq
    simp only [boardAddNote] at hm
    rcases List.mem_append.mp hm with hm0 | hm0
    · exact Or.inl ⟨bk0, hbk0, hm0⟩
    · rw [List.mem_singleton] at hm0
      subst hm0
      exact Or.inr ⟨hnew, ha, hi⟩
  · rw [if_neg h0] at heq
    rw [heq] at hm
    exact Or.inl ⟨bk0, hbk0, hm⟩

theorem Prov_appendBoard (p0 p : Project) (c c2 : Nat) (s1 s2 : List String)
    (cid : String) (b : Board)
    (h : Prov p0 p c c2 s1 s2) (hb : b.items = []) :
    Prov p0 (withBoards p (p.boards ++ [(cid, b)])) c c2 s1 s2 := by
  intro bk hbk m hm
  rw [withBoards_boards] at hbk
  rcases List.mem_append.mp hbk with hm2 | hm2
  · exact h bk hm2 m hm
  · rw [List.mem_singleton] at hm2
    subst hm2
    rw [hb] at hm
    cases hm

theorem Prov_of_boards_eq (p0 X Y : Project) (c c2 : Nat) (s1 s2 : List String)
    (h : X.boards = Y.boards) (hp : Prov p0 X c c2 s1 s2) : Prov p0 Y c c2 s1 s2 :=
  fun bk hbk => hp bk (h ▸ hbk)

theorem FreshNotes_of_boards_eq (X Y : Project) (c : Nat) (h : X.boards = Y.boards)
    (hf : FreshNotes X c) : FreshNotes Y c :=
  fun k hk bk hbk => hf k hk bk (h ▸ hbk)

theorem KeysOK_of_boards_eq (X Y : Project) (h : X.boards = Y.boards)
    (hk : KeysOK X) : KeysOK Y :=
  ⟨h ▸ hk.1, fun bk hbk => hk.2 bk (h ▸ hbk)⟩

-- ------------------------------------------------------------------
-- Paste specification: idea node with children
-- ------------------------------------------------------------------

theorem paste_node (sn : SnapNote) (cs : List Snapshot) (bid : String)
    (pos : Option (ℚ × ℚ)) (p : Project) (c : Nat) (store : List String) (db : Board)
    (hidea : sn.type = "idea") (hne : cs.isEmpty = false)
    (hdest : lookupA p.boards bid = some db)
    (hko : KeysOK p) (hfb : FreshBoards p c) (hfn : FreshNotes p c)
    (hfs : FreshStore store c)
    (hIH : ∀ (cb : String) (p3 : Project) (c3 : Nat) (st3 : List String) (cbB : Board),
        lookupA p3.boards cb = some cbB → KeysOK p3 → FreshBoards p3 c3 →
        FreshNotes p3 c3 → FreshStore st3 c3 → PasteListOut cs cb p3 c3 st3 cbB) :
    PasteNodeOut (.mk sn cs) bid pos p c store db := by
  obtain ⟨dA, hS, hdel, hlt, hle3, hA, hI⟩ := assets_spec sn c store hfs
  have hgenc_db : ∀ bk ∈ p.boards, genId c ∉ bk.2.items.map Prod.fst := hfn c le_rfl
  have hbid_keys : bid ∈ p.boards.map Prod.fst := mem_keys_of_lookupA p.boards bid db hdest
  have hbidgen : ∀ j, c ≤ j → bid ≠ genId j := fun j hj he => hfb j hj (he ▸ hbid_keys)
  have hbid_ne_chid : bid ≠ genId (afterAssetsC sn c store) :=
    hbidgen (afterAssetsC sn c store) (le_of_lt hlt)
  -- the two in-place updates of the destination board collapse to one
  -- insertion of the linked root note
  have hupd2 : (pasteP2 sn bid pos p c store).boards
      = updA p.boards bid (fun bd => boardAddNote bd (genId c)
          { pastedNote sn pos c store with child_board_id := some (genId (afterAssetsC sn c store)) }) := by
    rw [pasteP2, withBoards_boards, pasteP1, withBoards_boards, updA_updA]
    refine updA_congr_mem _ _ _ _ ?_
    intro kv hkv _
    simp only [boardSetChild, boardAddNote]
    rw [updA_append_fresh kv.2.items (genId c) (pastedNote sn pos c store) _ (hgenc_db kv hkv)]
  have hkeys_p2 : (pasteP2 sn bid pos p c store).boards.map Prod.fst
      = p.boards.map Prod.fst := by
    rw [hupd2, keys_updA]
  have hp3boards : (pasteP3 sn bid pos p c store).boards
      = (pasteP2 sn bid pos p c store).boards
        ++ [(genId (afterAssetsC sn c store),
             freshChildBoard (genId (afterAssetsC sn c store)) sn.payload.title)] := by
    rw [pasteP3, withBoards_boards]
  have hchid_not : genId (afterAssetsC sn c store)
      ∉ (pasteP2 sn bid pos p c store).boards.map Prod.fst := by
    rw [hkeys_p2]
    exact hfb _ (le_of_lt hlt)
  have hcb_p3 : lookupA (pasteP3 sn bid pos p c store).boards (genId (afterAssetsC sn c store))
      = some (freshChildBoard (genId (afterAssetsC sn c store)) sn.payload.title) := by
    rw [hp3boards, lookupA_append_none _ _ _ ((lookupA_eq_none_iff _ _).mpr hchid_not),
      lookupA_cons, if_pos rfl]
  have hkeys_p3 : (pasteP3 sn bid pos p c store).boards.map Prod.fst
      = p.boards.map Prod.fst ++ [genId (afterAssetsC sn c store)] := by
    rw [hp3boards, List.map_append, hkeys_p2]
    rfl
  have hdest_p3 : lookupA (pasteP3 sn bid pos p c store).boards bid
      = some (boardAddNote db (genId c)
          { pastedNote sn pos c store with child_board_id := some (genId (afterAssetsC sn c store)) }) := by
    rw [hp3boards, lookupA_append_single_ne _ _ _ _ hbid_ne_chid, hupd2,
      lookupA_updA_self, hdest, Option.map_some']
  have hko_p3 : KeysOK (pasteP3 sn bid pos p c store) := by
    refine KeysOK_appendBoard (pasteP2 sn bid pos p c store) _ _ ?_ hchid_not (by simp [freshChildBoard])
    refine KeysOK_of_boards_eq (withBoards p (updA p.boards bid (fun bd => boardAddNote bd (genId c)
      { pastedNote sn pos c store with child_board_id := some (genId (afterAssetsC sn c store)) }))) _ ?_ ?_
    · rw [withBoards_boards, hupd2]
    · exact KeysOK_updA_addNote p bid (genId c) _ hko hgenc_db
  have hfb3 : FreshBoards (pasteP3 sn bid pos p c store) (afterAssetsC sn c store + 1) := by
    intro k hk hmem
    rw [hkeys_p3] at hmem
    rcases List.mem_append.mp hmem with hm | hm
    · exact hfb k (by omega) hm
    · rw [List.mem_singleton] at hm
      have := genId_inj k (afterAssetsC sn c store) hm
      omega
  have hfn3 : FreshNotes (pasteP3 sn bid pos p c store) (afterAssetsC sn c store + 1) := by
    refine FreshNotes_appendBoard (pasteP2 sn bid pos p c store) _ _ _ ?_ rfl
    refine FreshNotes_of_boards_eq (withBoards p (updA p.boards bid (fun bd => boardAddNote bd (genId c)
      { pastedNote sn pos c store with child_board_id := some (genId (afterAssetsC sn c store)) }))) _ _ ?_ ?_
    · rw [withBoards_boards, hupd2]
    · refine FreshNotes_updA_addNote p bid (genId c) _ _ (FreshNotes_mono p c _ hfn (by omega)) ?_
      intro j hj he
      have := genId_inj c j he
      omega
  have hfs3 : FreshStore (afterAssetsS sn c store) (afterAssetsC sn c store + 1) :=
    FreshStore_step store _ c _ dA hfs hS
      (StoreDelta_widen c c (afterAssetsC sn c store) (afterAssetsC sn c store + 1) dA hdel le_rfl (by omega))
      (by omega)
  obtain ⟨pF, cF, stF, NEW, hEQF, hleF, hlocF, hdestF, hmemF, hndF, hCLF,
    ⟨nbF, hkF, hnbF⟩, hprovF, ⟨dF, hstF, hsdF⟩, hkoF⟩ :=
    hIH (genId (afterAssetsC sn c store)) (pasteP3 sn bid pos p c store)
      (afterAssetsC sn c store + 1) (afterAssetsS sn c store)
      (freshChildBoard (genId (afterAssetsC sn c store)) sn.payload.title)
      hcb_p3 hko_p3 hfb3 hfn3 hfs3
  have hlink : ideaLink { pastedNote sn pos c store with child_board_id := some (genId (afterAssetsC sn c store)) }
      = some (genId (afterAssetsC sn c store)) := by
    simp [ideaLink, truthyChild, truthyStr, pastedNote, hidea,
      genId_ne_empty (afterAssetsC sn c store)]
  refine ⟨pF, cF, stF,
    { pastedNote sn pos c store with child_board_id := some (genId (afterAssetsC sn c store)) },
    ?_, by omega, ?_, ?_, rfl, ?_, ?_, ?_, ?_, hkoF⟩
  · rw [pasteSubtree_some sn cs bid pos p c store db hdest, if_pos ⟨hidea, hne⟩]
    exact hEQF
  · intro bk hbk hfr
    have hbkchid : bk ≠ genId (afterAssetsC sn c store) :=
      hfr (afterAssetsC sn c store) (le_of_lt hlt) (by omega)
    rw [hlocF bk hbkchid (fun j hj1 hj2 => hfr j (by omega) hj2), hp3boards,
      lookupA_append_single_ne _ _ _ _ hbkchid, hupd2,
      lookupA_updA_ne _ _ _ _ hbk]
  · rw [hlocF bid hbid_ne_chid (fun j hj1 hj2 => hbidgen j (by omega)), hdest_p3]
  · intro q fuel hq hsz
    obtain ⟨f, rfl⟩ : ∃ f, fuel = f + 1 := ⟨fuel - 1, by omega⟩
    have hqcb : lookupA q.boards (genId (afterAssetsC sn c store))
        = some (boardAddAll (freshChildBoard (genId (afterAssetsC sn c store)) sn.payload.title) NEW) := by
      rw [hq (afterAssetsC sn c store) (le_of_lt hlt) (by omega), hdestF]
    have horder : (boardAddAll (freshChildBoard (genId (afterAssetsC sn c store)) sn.payload.title) NEW).items_order
        = NEW.map Prod.fst := by
      rw [boardAddAll_order]
      show [] ++ NEW.map Prod.fst = NEW.map Prod.fst
      rw [List.nil_append]
    have hbq : ∀ kv ∈ NEW,
        lookupA (boardAddAll (freshChildBoard (genId (afterAssetsC sn c store)) sn.payload.title) NEW).items kv.1
          = some kv.2 := by
      intro kv hkv
      rw [boardAddAll_items]
      show lookupA ([] ++ NEW) kv.1 = some kv.2
      rw [List.nil_append]
      exact mem_eq_lookupA NEW kv hndF hkv
    have hsize : snapSizeList cs < f := by
      simp only [snapSize] at hsz
      omega
    obtain ⟨ss, hcolc, hshc⟩ := hCLF q _ f
      (fun j hj1 hj2 => hq j (by omega) hj2) hbq hsize
    refine ⟨.mk (snapOfNote { pastedNote sn pos c store with child_board_id := some (genId (afterAssetsC sn c store)) }) ss, ?_, ?_⟩
    · rw [collectSubtree_succ]
      simp only [hlink, hqcb, horder, hcolc]
    · simp only [snapShape]
      rw [hshc]
      rfl
  · refine ⟨[genId (afterAssetsC sn c store)] ++ nbF, ?_, ?_⟩
    · rw [hkF, hkeys_p3, List.append_assoc]
    · refine NewKeys_append c (afterAssetsC sn c store + 1) cF _ _ ?_ hnbF (by omega) hleF
      intro x hx
      rw [List.mem_singleton] at hx
      exact ⟨afterAssetsC sn c store, le_of_lt hlt, by omega, hx⟩
  · refine Prov_trans p (pasteP3 sn bid pos p c store) pF c (afterAssetsC sn c store + 1) cF
      store (afterAssetsS sn c store) stF dA dF ?_ hprovF hS hstF (by omega) hleF
    refine Prov_appendBoard p (pasteP2 sn bid pos p c store) _ _ _ _ _ _ ?_ rfl
    refine Prov_of_boards_eq p (withBoards p (updA p.boards bid (fun bd => boardAddNote bd (genId c)
      { pastedNote sn pos c store with child_board_id := some (genId (afterAssetsC sn c store)) }))) _ _ _ _ _ ?_ ?_
    · rw [withBoards_boards, hupd2]
    · exact Prov_updA_addNote p bid (genId c) _ c (afterAssetsC sn c store + 1) store
        (afterAssetsS sn c store) ⟨c, le_rfl, by omega, rfl⟩ hA hI
  · refine ⟨dA ++ dF, ?_, StoreDelta_append c (afterAssetsC sn c store + 1) cF dA dF
      (StoreDelta_widen c c (afterAssetsC sn c store) (afterAssetsC sn c store + 1) dA hdel le_rfl (by omega))
      hsdF (by omega) hleF⟩
    rw [hstF, hS, List.append_assoc]

-- ------------------------------------------------------------------
-- Full paste specification, by mutual induction on the snapshot
-- ------------------------------------------------------------------

mutual

theorem paste_spec (snap : Snapshot) :
    ∀ (bid : String) (pos : Option (ℚ × ℚ)) (p : Project) (c : Nat)
      (store : List String) (db : Board),
    SnapWF snap → lookupA p.boards bid = some db →
    KeysOK p → FreshBoards p c → FreshNotes p c → FreshStore store c →
    PasteNodeOut snap bid pos p c store db := by
  obtain ⟨sn, cs⟩ := snap
  intro bid pos p c store db hwf hdest hko hfb hfn hfs
  simp only [SnapWF] at hwf
  cases cs with
  | nil => exact paste_leaf sn bid pos p c store db hdest hko hfb hfn hfs
  | cons ch rest =>
    refine paste_node sn (ch :: rest) bid pos p c store db (hwf.1 (by simp)) rfl
      hdest hko hfb hfn hfs ?_
    intro cb p3 c3 st3 cbB hl hk hb hn hs
    exact pasteList_spec (ch :: rest) cb p3 c3 st3 cbB hwf.2 hl hk hb hn hs

theorem pasteList_spec (cs : List Snapshot) :
    ∀ (cb : String) (p : Project) (c : Nat) (store : List String) (cbB : Board),
    SnapWFList cs → lookupA p.boards cb = some cbB →
    KeysOK p → FreshBoards p c → FreshNotes p c → FreshStore store c →
    PasteListOut cs cb p c store cbB := by
  intro cb p c store cbB hwf hcb hko hfb hfn hfs
  cases cs with
  | nil => exact pasteList_nil_spec cb p c store cbB hcb hko
  | cons ch rest =>
    simp only [SnapWFList] at hwf
    refine pasteList_cons_step ch rest cb p c store cbB hcb hko hfb hfn hfs ?_ ?_
    · exact paste_spec ch cb none p c store cbB hwf.1 hcb hko hfb hfn hfs
    · intro p3 c3 st3 cbB3 hl hk hb hn hs
      exact pasteList_spec rest cb p3 c3 st3 cbB3 hwf.2 hl hk hb hn hs

end

/-- C4: pasting a well-formed copied snapshot twice into the same board
of the same project succeeds both times, appends two root notes with
distinct fresh ids, re-collects both times to the snapshot's exact
skeleton (kinds, sizes, z values and payload scalars in order), creates
only fresh board keys — the first paste's in `[c, c1)`, the second's in
`[c1, c2)`, all disjoint from each other and from every pre-existing
id — and gives every pasted note fresh asset copies: each non-empty
pasted reference is a name absent from the store its paste started
from, so the two pastes never share an asset file with each other or
with the source. -/
theorem claim_C4 (snap : Snapshot) (dest : String) (p : Project) (c : Nat)
    (store : List String) (pos1 pos2 : Option (ℚ × ℚ)) (db : Board) (fuel : Nat)
    (hwf : SnapWF snap)
    (hdest : lookupA p.boards dest = some db)
    (hko : KeysOK p) (hfb : FreshBoards p c) (hfn : FreshNotes p c)
    (hfs : FreshStore store c)
    (hfuel : snapSize snap < fuel) :
    ∃ p1 c1 st1 p2 c2 st2 n1 n2,
      pasteSubtree snap dest pos1 p c store = some (p1, c1, st1)
      ∧ pasteSubtree snap dest pos2 p1 c1 st1 = some (p2, c2, st2)
      ∧ lookupA p2.boards dest = some (boardAddAll db [(genId c, n1), (genId c1, n2)])
      ∧ n1.id = genId c ∧ n2.id = genId c1 ∧ c < c1 ∧ c1 < c2 ∧ genId c ≠ genId c1
      ∧ (∃ s1, collectSubtree fuel p2 n1 = some s1 ∧ snapShape s1 = snapShape snap)
      ∧ (∃ s2, collectSubtree fuel p2 n2 = some s2 ∧ snapShape s2 = snapShape snap)
      ∧ (∃ nb1 nb2, p2.boards.map Prod.fst = (p.boards.map Prod.fst ++ nb1) ++ nb2
          ∧ NewKeys c c1 nb1 ∧ NewKeys c1 c2 nb2)
      ∧ Prov p p1 c c1 store st1
      ∧ Prov p1 p2 c1 c2 st1 st2
      ∧ (∃ d1 d2, st1 = store ++ d1 ∧ st2 = st1 ++ d2
          ∧ StoreDelta c c1 d1 ∧ StoreDelta c1 c2 d2)
      ∧ AssetNew store st1 n1.payload.audio_asset
      ∧ AssetNew store st1 n1.payload.image_asset
      ∧ AssetNew st1 st2 n2.payload.audio_asset
      ∧ AssetNew st1 st2 n2.payload.image_asset
      ∧ (n1.payload.audio_asset ≠ "" → n2.payload.audio_asset ≠ "" →
          n1.payload.audio_asset ≠ n2.payload.audio_asset)
      ∧ (n1.payload.image_asset ≠ "" → n2.payload.image_asset ≠ "" →
          n1.payload.image_asset ≠ n2.payload.image_asset) := by
  obtain ⟨p1, c1, st1, n1, hEQ1, hlt1, hloc1, hdest1, hid1, hcol1, ⟨nb1, hk1, hnb1⟩,
    hprov1, ⟨d1, hst1, hsd1⟩, hko1⟩ :=
    paste_spec snap dest pos1 p c store db hwf hdest hko hfb hfn hfs
  have hfb1 := FreshBoards_step p p1 c c1 nb1 hfb hk1 hnb1 (le_of_lt hlt1)
  have hfn1 := FreshNotes_step p p1 c c1 store st1 hfn hprov1 (le_of_lt hlt1)
  have hfs1 := FreshStore_step store st1 c c1 d1 hfs hst1 hsd1 (le_of_lt hlt1)
  obtain ⟨p2, c2, st2, n2, hEQ2, hlt2, hloc2, hdest2, hid2, hcol2, ⟨nb2, hk2, hnb2⟩,
    hprov2, ⟨d2, hst2, hsd2⟩, hko2⟩ :=
    paste_spec snap dest pos2 p1 c1 st1 (boardAddNote db (genId c) n1) hwf
      hdest1 hko1 hfb1 hfn1 hfs1
  have hdest_keys : dest ∈ p.boards.map Prod.fst := mem_keys_of_lookupA p.boards dest db hdest
  have hdestgen : ∀ j, c ≤ j → dest ≠ genId j := fun j hj he => hfb j hj (he ▸ hdest_keys)
  have hExt1 : ∀ j, c ≤ j → j < c1 →
      lookupA p2.boards (genId j) = lookupA p1.boards (genId j) := by
    intro j hj1 hj2
    refine hloc2 (genId j) (Ne.symm (hdestgen j hj1)) ?_
    intro j2 h1 h2 he
    have := genId_inj j j2 he
    omega
  obtain ⟨s1, hs1, hsh1⟩ := hcol1 p2 fuel hExt1 hfuel
  obtain ⟨s2, hs2, hsh2⟩ := hcol2 p2 fuel (fun j _ _ => rfl) hfuel
  have hb2mem : (dest, boardAddNote (boardAddNote db (genId c) n1) (genId c1) n2) ∈ p2.boards :=
    lookupA_mem _ _ _ hdest2
  have hn2mem : (genId c1, n2) ∈ (boardAddNote (boardAddNote db (genId c) n1) (genId c1) n2).items := by
    simp [boardAddNote]
  have hn2assets : AssetNew st1 st2 n2.payload.audio_asset
      ∧ AssetNew st1 st2 n2.payload.image_asset := by
    rcases hprov2 _ hb2mem _ hn2mem with ⟨bk0, hbk0, hm0⟩ | ⟨_, ha, hi⟩
    · exact absurd (List.mem_map_of_mem Prod.fst hm0) (hfn1 c1 le_rfl bk0 hbk0)
    · exact ⟨ha, hi⟩
  have hb1mem : (dest, boardAddNote db (genId c) n1) ∈ p1.boards :=
    lookupA_mem _ _ _ hdest1
  have hn1mem : (genId c, n1) ∈ (boardAddNote db (genId c) n1).items := by
    simp [boardAddNote]
  have hn1assets : AssetNew store st1 n1.payload.audio_asset
      ∧ AssetNew store st1 n1.payload.image_asset := by
    rcases hprov1 _ hb1mem _ hn1mem with ⟨bk0, hbk0, hm0⟩ | ⟨_, ha, hi⟩
    · exact absurd (List.mem_map_of_mem Prod.fst hm0) (hfn c le_rfl bk0 hbk0)
    · exact ⟨ha, hi⟩
  refine ⟨p1, c1, st1, p2, c2, st2, n1, n2, hEQ1, hEQ2, ?_, hid1, hid2, hlt1, hlt2, ?_,
    ⟨s1, hs1, hsh1⟩, ⟨s2, hs2, hsh2⟩, ⟨nb1, nb2, ?_, hnb1, hnb2⟩, hprov1, hprov2,
    ⟨d1, d2, hst1, hst2, hsd1, hsd2⟩, hn1assets.1, hn1assets.2, hn2assets.1, hn2assets.2,
    ?_, ?_⟩
  · rw [hdest2, boardAddNote_eq_addAll, boardAddNote_eq_addAll, boardAddAll_append]
    rfl
  · intro he
    have := genId_inj c c1 he
    omega
  · rw [hk2, hk1]
  · intro ha1 ha2 he
    rcases hn1assets.1 with h | ⟨_, hin1⟩
    · exact ha1 h
    · rcases hn2assets.1 with h | ⟨hn2s, _⟩
      · exact ha2 h
      · exact hn2s (he ▸ hin1)
  · intro ha1 ha2 he
    rcases hn1assets.2 with h | ⟨_, hin1⟩
    · exact ha1 h
    · rcases hn2assets.2 with h | ⟨hn2s, _⟩
      · exact ha2 h
      · exact hn2s (he ▸ hin1)

/-- C4 witness: pasting the concrete captured idea-with-leaf snapshot
(root carrying the stored image `img.png`) twice into the root board of
the concrete one-board project. -/
theorem claim_C4_witness :
    ∃ p1 c1 st1 p2 c2 st2 n1 n2,
      pasteSubtree snapC4 "root" none pC4 0 storeC4 = some (p1, c1, st1)
      ∧ pasteSubtree snapC4 "root" none p1 c1 st1 = some (p2, c2, st2)
      ∧ lookupA p2.boards "root" = some (boardAddAll { id := "root" } [(genId 0, n1), (genId c1, n2)])
      ∧ n1.id = genId 0 ∧ n2.id = genId c1 ∧ 0 < c1 ∧ c1 < c2 ∧ genId 0 ≠ genId c1
      ∧ (∃ s1, collectSubtree 5 p2 n1 = some s1 ∧ snapShape s1 = snapShape snapC4)
      ∧ (∃ s2, collectSubtree 5 p2 n2 = some s2 ∧ snapShape s2 = snapShape snapC4)
      ∧ (∃ nb1 nb2, p2.boards.map Prod.fst = (pC4.boards.map Prod.fst ++ nb1) ++ nb2
          ∧ NewKeys 0 c1 nb1 ∧ NewKeys c1 c2 nb2)
      ∧ Prov pC4 p1 0 c1 storeC4 st1
      ∧ Prov p1 p2 c1 c2 st1 st2
      ∧ (∃ d1 d2, st1 = storeC4 ++ d1 ∧ st2 = st1 ++ d2
          ∧ StoreDelta 0 c1 d1 ∧ StoreDelta c1 c2 d2)
      ∧ AssetNew storeC4 st1 n1.payload.audio_asset
      ∧ AssetNew storeC4 st1 n1.payload.image_asset
      ∧ AssetNew st1 st2 n2.payload.audio_asset
      ∧ AssetNew st1 st2 n2.payload.image_asset
      ∧ (n1.payload.audio_asset ≠ "" → n2.payload.audio_asset ≠ "" →
          n1.payload.audio_asset ≠ n2.payload.audio_asset)
      ∧ (n1.payload.image_asset ≠ "" → n2.payload.image_asset ≠ "" →
          n1.payload.image_asset ≠ n2.payload.image_asset) :=
  claim_C4 snapC4 "root" pC4 0 storeC4 none none { id := "root" } 5
    (by simp [SnapWF, SnapWFList, snapC4, snapLeafC4, snapNoteRootC4, snapNoteLeafC4])
    (by decide)
    ⟨by decide, by decide⟩
    (by
      intro k hk hmem
      simp [pC4] at hmem
      exact genId_ne_of_head k "root" (by decide) hmem)
    (by
      intro k hk bk hbk hmem
      simp [pC4] at hbk
      rw [hbk] at hmem
      simp at hmem)
    (by
      intro k hk e hmem
      simp [storeC4] at hmem
      exact genId_append_ne_of_head k e "img.png" (by decide) hmem)
    (by simp [snapC4, snapLeafC4, snapSize, snapSizeList])
